import Mathlib

/-!
# Verification of the seamcarving core

A shallow embedding of the seam-carving library (`src/pos.rs`, `src/matrix.rs`,
`src/energy.rs`, `src/seamfinder.rs`, `src/carved.rs`, `src/rotated.rs` and the
`resize` orchestration), together with proofs and refutations of the spec's
claims about it.

Machine integers (`u32`) are modelled as `Nat`; the `u32::MAX` sentinel used by
the seam finder is the literal `4294967295`.  Additions are modelled as exact
`Nat` additions (the embedding agrees with the Rust code whenever no `u32`
overflow occurs).  The `i8` predecessor offset is modelled as `Int`.
-/

set_option autoImplicit false

namespace Seamcarving

/-- `Pos(u32, u32)` from `src/pos.rs`: an integer pair `(x, y)`. -/
structure Pos where
  x : Nat
  y : Nat
deriving DecidableEq, Repr

/-- A contiguous ascending run of x coordinates at a fixed y, as produced by
the `PosLine` iterator of `src/pos.rs` (`x` ranging from `xStart` to `xEnd`
inclusive, empty when `xStart > xEnd`). -/
def posLine (xStart xEnd y : Nat) : List Pos :=
  (List.range (xEnd + 1 - xStart)).map (fun i => ⟨xStart + i, y⟩)

/-- `Pos::successors` from `src/pos.rs`: the ≤ 3 cells directly below,
x clamped by saturating subtraction and by `min (x+1) (size.x - 1)`;
empty when `y + 1 ≥ size.y`. -/
def Pos.successors (p size : Pos) : List Pos :=
  let xEnd := min (p.x + 1) (size.x - 1)
  if p.y + 1 < size.y then posLine (p.x - 1) xEnd (p.y + 1) else []

/-- `Pos::predecessors` from `src/pos.rs`: the mirror image of `successors`,
the ≤ 3 cells directly above; empty on row 0. -/
def Pos.predecessors (p size : Pos) : List Pos :=
  let xEnd := min (p.x + 1) (size.x - 1)
  if p.y ≥ 1 then posLine (p.x - 1) xEnd (p.y - 1) else []

/-- `Pos::surrounding` from `src/pos.rs`: top, bottom, left, right neighbours,
clamped to the grid by reusing the centre coordinate at an edge
(`saturating_sub` is `Nat` subtraction, `min` clamps the far side). -/
def Pos.surrounding (p size : Pos) : List Pos :=
  [⟨p.x, p.y - 1⟩,
   ⟨p.x, min (p.y + 1) (size.y - 1)⟩,
   ⟨p.x - 1, p.y⟩,
   ⟨min (p.x + 1) (size.x - 1), p.y⟩]

/-- `RectIterator` from `src/pos.rs`: the iterator state. -/
structure RectIterator where
  currentX : Nat
  currentY : Nat
  startX : Nat
  startY : Nat
  endX : Nat
  endY : Nat
deriving DecidableEq, Repr

/-- `Pos::iter_in_rect` from `src/pos.rs`. -/
def Pos.iter_in_rect (start stop : Pos) : RectIterator :=
  ⟨start.x, start.y, start.x, start.y, stop.x, stop.y⟩

/-- `Iterator::next` for `RectIterator`, translated exactly from
`src/pos.rs` lines 63-80. -/
def RectIterator.next (it : RectIterator) : Option (Pos × RectIterator) :=
  if it.currentY = it.endY then none
  else
    let pos : Pos := ⟨it.currentX, it.currentY⟩
    let cx := it.currentX + 1
    if cx = it.endX then
      some (pos, { it with currentX := it.startX, currentY := it.currentY + 1 })
    else
      some (pos, { it with currentX := cx })

/-- Unfold a `RectIterator` for at most `n` steps, collecting the yielded
positions.  When the iterator terminates within `n` steps this is its entire
(finite) output. -/
def RectIterator.take (it : RectIterator) : Nat → List Pos
  | 0 => []
  | n + 1 =>
    match it.next with
    | none => []
    | some (p, it') => p :: it'.take n

/-- The rows `cy, cy+1, …` (for `k` rows) of the rectangle with x range
`[sx, ex)`, each row in ascending-x order. -/
def rectRows (sx ex : Nat) : Nat → Nat → List Pos
  | _, 0 => []
  | cy, k + 1 =>
    (List.range (ex - sx)).map (fun i => ⟨sx + i, cy⟩) ++ rectRows sx ex (cy + 1) k

/-- The row-major enumeration of the half-open rectangle `[start, stop)`:
the sequence the spec ascribes to `iter_in_rect`. -/
def rectList (start stop : Pos) : List Pos :=
  rectRows start.x stop.x start.y (stop.y - start.y)

/-- `Matrix<T>` from `src/matrix.rs`: dense storage with an original and a
current (logical) width. -/
structure Matrix (α : Type) where
  original_width : Nat
  current_width : Nat
  contents : List α
deriving DecidableEq, Repr

/-- `Matrix::from_fn` from `src/matrix.rs`. -/
def Matrix.from_fn {α : Type} (size : Pos) (f : Nat → Nat → α) : Matrix α :=
  ⟨size.x, size.x, (List.range (size.x * size.y)).map (fun i => f (i % size.x) (i / size.x))⟩

/-- `Index<Pos> for Matrix<T>`: read `contents[x + y * original_width]`.
Rust panics on an out-of-range index; the embedding returns `default`,
and every theorem below only relies on in-range reads. -/
def Matrix.get {α : Type} [Inhabited α] (m : Matrix α) (p : Pos) : α :=
  m.contents.getD (p.x + p.y * m.original_width) default

/-- `IndexMut<Pos> for Matrix<T>`: write `contents[x + y * original_width]`.
(`List.set` is the identity out of range, where Rust would panic.) -/
def Matrix.set {α : Type} (m : Matrix α) (p : Pos) (v : α) : Matrix α :=
  { m with contents := m.contents.set (p.x + p.y * m.original_width) v }

/-- `[T]::rotate_left(1)` applied to the sub-slice `[sx, cw)` of one row, as in
`Matrix::remove_seam`.  The guard mirrors the source's `if !end.is_empty()`.
Rust would panic if the slice bounds were invalid (`sx > cw` or
`cw > row.len()`); such bounds never occur in the verified states. -/
def rotateRow {α : Type} (row : List α) (sx cw : Nat) : List α :=
  if sx < cw ∧ cw ≤ row.length then
    match (row.drop sx).take (cw - sx) with
    | [] => row
    | a :: tail => row.take sx ++ (tail ++ [a]) ++ row.drop cw
  else row

/-- The chunking loop, structurally recursive on a step budget that the
wrapper instantiates with the list length (ample, since every chunk consumes
at least one element). -/
def chunksExactGo {α : Type} (w : Nat) : Nat → List α → List (List α)
  | 0, _ => []
  | n + 1, l =>
    if 0 < w ∧ w ≤ l.length then l.take w :: chunksExactGo w n (l.drop w)
    else []

/-- Split a list into `chunks_exact w`: full chunks of length `w`
(the remainder is dropped, as `chunks_exact` does not yield it). -/
def chunksExact {α : Type} (w : Nat) (l : List α) : List (List α) :=
  chunksExactGo w l.length l

/-- `zip(seam.iter().rev()).for_each(rotate)` over the rows: rows beyond the
seam length are left unchanged, as `zip` stops at the shorter sequence. -/
def zipRotate {α : Type} (cw : Nat) : List (List α) → List Pos → List (List α)
  | rows, [] => rows
  | [], _ => []
  | row :: rows, p :: ps => rotateRow row p.x cw :: zipRotate cw rows ps

/-- `Matrix::remove_seam` from `src/matrix.rs`: decrement the logical width
and left-rotate each row's tail `[seam_x, current_width)`; row `y` is paired
with the seam position of row `y` because the seam is stored bottom-to-top
and re-reversed by `seam.iter().rev()`. -/
def Matrix.remove_seam {α : Type} (m : Matrix α) (seam : List Pos) : Matrix α :=
  let cw := m.current_width
  let rows := chunksExact m.original_width m.contents
  let rest := m.contents.drop (m.original_width * rows.length)
  { m with
    current_width := m.current_width - 1,
    contents := (zipRotate cw rows seam.reverse).flatten ++ rest }

/-- `SeamElem` from `src/seamfinder.rs`. -/
structure SeamElem where
  predecessor_dx : Int
  energy : Nat
deriving DecidableEq, Repr

/-- `u32::MAX`, the sentinel used by `SeamFinder::fill`. -/
def U32MAX : Nat := 4294967295

/-- `SeamElem::new`. -/
def SeamElem.new (energy : Nat) : SeamElem := ⟨0, energy⟩

/-- `SeamElem::predecessor`: apply the stored offset and move one row up.
`u32` subtraction would panic on underflow; the embedding truncates at 0,
and the verified states never underflow. -/
def SeamElem.predecessor (e : SeamElem) (pos : Pos) : Pos :=
  ⟨(pos.x + e.predecessor_dx).toNat, pos.y - 1⟩

/-- `DirtyBounds` from `src/seamfinder.rs`: the half-open x-range `[lo, hi)`
of columns that must be (re)computed. -/
structure DirtyBounds where
  lo : Nat
  hi : Nat
deriving DecidableEq, Repr

/-- `DirtyBounds::clean`. -/
def DirtyBounds.clean (size : Pos) : DirtyBounds := ⟨size.x, 0⟩

/-- `DirtyBounds::dirty`. -/
def DirtyBounds.dirty (size : Pos) : DirtyBounds := ⟨0, size.x⟩

/-- `DirtyBounds::update`. -/
def DirtyBounds.update (b : DirtyBounds) (p : Pos) : DirtyBounds :=
  ⟨if p.x < b.lo then p.x else b.lo, if p.x ≥ b.hi then p.x + 1 else b.hi⟩

/-- `SeamFinder` from `src/seamfinder.rs` (the `to_clear` scratch vector is
the explicit worklist argument of `clearLoop` below). -/
structure SeamFinder where
  size : Pos
  contents : Matrix (Option SeamElem)
deriving DecidableEq, Repr

/-- The full mutable state of a `SeamFinder`, bounds included. -/
structure SFState where
  sf : SeamFinder
  dirty : DirtyBounds
deriving DecidableEq, Repr

/-- `SeamFinder::new`. -/
def SFState.new (size : Pos) : SFState :=
  ⟨⟨size, Matrix.from_fn size (fun _ _ => none)⟩, DirtyBounds.dirty size⟩

/-- The body of `SeamFinder::fill` for a single absent position: compute the
local energy, take the minimum over present predecessors (strict comparison,
so the first — lowest-x — minimum wins), fall back to the local energy alone
when no predecessor is present. -/
def fillCell (size : Pos) (c : Matrix (Option SeamElem)) (energy : Pos → Nat)
    (pos : Pos) : SeamElem :=
  let delta := energy pos
  let best := (pos.predecessors size).foldl
    (fun best pred =>
      match c.get pred with
      | some e =>
        if e.energy + delta < best.energy then ⟨(pred.x : Int) - (pos.x : Int), e.energy + delta⟩
        else best
      | none => best)
    (SeamElem.new U32MAX)
  if best.energy = U32MAX then ⟨best.predecessor_dx, delta⟩ else best

/-- One step of the fill pass: skip a present cell, fill an absent one. -/
def fillStep (size : Pos) (energy : Pos → Nat) (c : Matrix (Option SeamElem))
    (pos : Pos) : Matrix (Option SeamElem) :=
  if (c.get pos).isSome then c
  else c.set pos (some (fillCell size c energy pos))

/-- `SeamFinder::fill`: walk the dirty range × full height in row-major order,
skip present cells, fill absent ones, then reset the bounds to clean.
The enumeration is `rectList`, which coincides with the source's
`Pos::iter_in_rect` whenever the latter terminates
(see `rectIterator_take_remaining` and `iter_in_rect_rowmajor`). -/
def SFState.fill (s : SFState) (energy : Pos → Nat) : SFState :=
  let positions := rectList ⟨s.dirty.lo, 0⟩ ⟨s.dirty.hi, s.sf.size.y⟩
  ⟨⟨s.sf.size, positions.foldl (fillStep s.sf.size energy) s.sf.contents⟩,
   DirtyBounds.clean s.sf.size⟩

/-- One iteration step plus the rest of `SeamFinder::clear`'s worklist loop.
The worklist is a stack (`Vec::push`/`Vec::pop`); successors are pushed in
ascending-x order, so they pop in descending-x order.  The loop is modelled
with an iteration budget `fuel`; the source loops until the stack is empty,
and every theorem about `clear` holds for every budget. -/
def clearLoop : Nat → SFState → List Pos → SFState
  | 0, s, _ => s
  | _ + 1, s, [] => s
  | fuel + 1, s, pos :: rest =>
    let c := s.sf.contents.set pos none
    let b := s.dirty.update pos
    let pushes := (pos.successors s.sf.size).filter
      (fun q => match c.get q with
        | some e => e.predecessor q = pos
        | none => false)
    clearLoop fuel ⟨⟨s.sf.size, c⟩, b⟩ (pushes.reverse ++ rest)

/-- `SeamFinder::clear`: invalidate `p` and, transitively, every present cell
whose stored predecessor resolves to a cleared cell.  The budget
`contents.length + 1` covers every run the verified theorems evaluate; the
invariant theorems below are proved for arbitrary budgets. -/
def SFState.clear (s : SFState) (p : Pos) : SFState :=
  clearLoop (s.sf.contents.contents.length + 1) s [p]

/-- The backward walk of `SeamFinder::extract_seam`
(`std::iter::successors`), structurally recursive on the row index: yield
`pos`, read its predecessor (before `clear`, as in the source), clear `pos`,
continue until row 0.  Returns `none` where the source would panic on
`expect("should be filled")`.  The stored predecessor is always one row up
(`predecessor` subtracts 1 from `y`), so tracking the row index as the
recursion argument is exact. -/
def walkGo : Nat → SFState → Nat → Option (List Pos × SFState)
  | 0, s, x => some ([⟨x, 0⟩], s.clear ⟨x, 0⟩)
  | y + 1, s, x =>
    match s.sf.contents.get ⟨x, y + 1⟩ with
    | none => none
    | some e =>
      let next := e.predecessor ⟨x, y + 1⟩
      match walkGo y (s.clear ⟨x, y + 1⟩) next.x with
      | none => none
      | some (rest, s') => some (⟨x, y + 1⟩ :: rest, s')

/-- The backward walk, entered at the chosen bottom cell. -/
def walkSeam (s : SFState) (pos : Pos) : Option (List Pos × SFState) :=
  walkGo pos.y s pos.x

/-- The bottom-row scan of `SeamFinder::extract_seam`:
`(0..w).map(x ⟼ Pos(x, h-1)).min_by_key(energy)`. `min_by_key` returns the
first (lowest-x) element among equal minima and evaluates the key of every
element, so a single absent bottom cell is a panic (`none` here). -/
def bottomScan (s : SFState) : Option (Option Pos) :=
  let h := s.sf.size.y
  if h = 0 then some none
  else
    let candidates := (List.range s.sf.size.x).map (fun x => Pos.mk x (h - 1))
    if candidates.all (fun c => (s.sf.contents.get c).isSome) then
      some (candidates.foldl
        (fun acc c =>
          let k := ((s.sf.contents.get c).map SeamElem.energy).getD 0
          match acc with
          | none => some (c, k)
          | some (b, kb) => if k < kb then some (c, k) else some (b, kb))
        none |>.map Prod.fst)
    else none

/-- `SeamFinder::extract_seam` from `src/seamfinder.rs`: fill, pick the
lowest-energy bottom cell (ties to the lowest x), walk the stored
predecessors up to row 0 clearing every visited cell, shrink the logical
width, compact the matrix with `remove_seam`, and return the bottom-to-top
seam.  `none` models a panic. -/
def SFState.extract_seam (s : SFState) (energy : Pos → Nat) :
    Option (List Pos × SFState) :=
  let s := s.fill energy
  match bottomScan s with
  | none => none
  | some none =>
    some ([], ⟨⟨⟨s.sf.size.x - 1, s.sf.size.y⟩, s.sf.contents.remove_seam []⟩, s.dirty⟩)
  | some (some init) =>
    match walkSeam s init with
    | none => none
    | some (seam, s') =>
      some (seam,
        ⟨⟨⟨s'.sf.size.x - 1, s'.sf.size.y⟩, s'.sf.contents.remove_seam seam⟩, s'.dirty⟩)

/-!
## The image layer

A read-only grid capability (`width`, `height`, `get_pixel`) with pixels as
fixed-length sequences of numeric channels, as in §6 of the spec; pixel reads
out of bounds are unconstrained (Rust's `image` crate panics there, and no
verified statement depends on them).  Channel values are modelled as `Int`
(the `to_i32` conversions in `src/energy.rs` are exact for every image
channel type).
-/

/-- A read-only image view: dimensions plus a pixel function returning the
list of channel values. -/
structure Image where
  width : Nat
  height : Nat
  pixel : Nat → Nat → List Int

/-- `max_pos` from `src/lib.rs`: `Pos(img.width(), img.height())`. -/
def max_pos (img : Image) : Pos := ⟨img.width, img.height⟩

/-- `square_diff` from `src/energy.rs`: the squared difference of two channel
values, widened to a signed integer before squaring. -/
def square_diff (a b : Int) : Nat := ((a - b) * (a - b)).toNat

/-- `square_diff_px` from `src/energy.rs`: sum of `square_diff` over the
channels of two pixels (the source indexes `0..channel_count`; both pixels of
one image have exactly `channel_count` channels). -/
def square_diff_px (p1 p2 : List Int) : Nat :=
  (List.zipWith square_diff p1 p2).sum

/-- `energy_fn` from `src/energy.rs`: sum over the vertical pair
(top/bottom) and the horizontal pair (left/right) of the squared per-channel
differences, neighbours clamped by `Pos::surrounding`. -/
def energy_fn (img : Image) (pos : Pos) : Nat :=
  match pos.surrounding (max_pos img) with
  | [top, bottom, left, right] =>
    square_diff_px (img.pixel top.x top.y) (img.pixel bottom.x bottom.y) +
      square_diff_px (img.pixel left.x left.y) (img.pixel right.x right.y)
  | _ => 0

/-- `Carved` from `src/carved.rs`: a borrowed image plus a position-alias
matrix; `img[x,y] = self[pos_aliases[x,y], y]`. -/
structure Carved where
  img : Image
  removed : Nat
  pos_aliases : Matrix Nat

/-- `Carved::new`: identity alias matrix, nothing removed. -/
def Carved.new (img : Image) : Carved :=
  ⟨img, 0, Matrix.from_fn (max_pos img) (fun x _ => x)⟩

/-- `Carved::remove_seam`: compact the alias matrix and count the removal. -/
def Carved.remove_seam (c : Carved) (seam : List Pos) : Carved :=
  ⟨c.img, c.removed + 1, c.pos_aliases.remove_seam seam⟩

/-- The `GenericImageView` impl of `Carved`: dimensions
`(w - removed, h)`, pixels read through the alias matrix. -/
def Carved.view (c : Carved) : Image :=
  ⟨c.img.width - c.removed, c.img.height,
   fun x y => c.img.pixel (c.pos_aliases.get ⟨x, y⟩) y⟩

/-- `Rotated` from `src/rotated.rs`: swap the two dimensions and the two
coordinates of every pixel read. -/
def rotated (img : Image) : Image :=
  ⟨img.height, img.width, fun x y => img.pixel y x⟩

/-!
## Orchestration

`src/carved.rs` and `src/energy.rs` refer to `crate::max_pos` and
`crate::image_view_to_buffer`, and `tests/resize.rs` exercises a `resize`
built on `SeamFinder`, `Carved` and `Rotated`; that glue module itself is not
among the sources (the `lib.rs` present is an older, self-contained
implementation that predates `SeamFinder`), so the driver below is modelled
from the spec.
-/

/-- Modelled from the spec (§6, missing glue `image_view_to_buffer` of
`lib.rs`): materialize a view into a freshly allocated dense buffer of the
same pixel layout by sampling every pixel. -/
def image_view_to_buffer (img : Image) : Image :=
  ⟨img.width, img.height, fun x y => img.pixel x y⟩

/-- Modelled from the spec (§2, §4.6, missing glue `carve` of `lib.rs`):
remove `k` vertical seams: one `SeamFinder` sized to the starting dimensions,
each extraction's energy computed through the current carved view, each seam
applied to the carved view.  `none` models a panic in `extract_seam`. -/
def carveSteps : Nat → Carved → SFState → Option (Carved × SFState)
  | 0, c, f => some (c, f)
  | k + 1, c, f =>
    match f.extract_seam (fun p => energy_fn c.view p) with
    | none => none
    | some (seam, f') => carveSteps k (c.remove_seam seam) f'

/-- Modelled from the spec (§4.6, missing glue `carve` of `lib.rs`). -/
def carve (img : Image) (k : Nat) : Option Carved :=
  (carveSteps k (Carved.new img) (SFState.new (max_pos img))).map Prod.fst

/-- Modelled from the spec (§4.6, missing glue `resize` of `lib.rs`):
saturating-subtract the target from the source dimensions, carve the vertical
seams, transpose, carve again, transpose back, materialize.  `none` models a
panic. -/
def resize (img : Image) (width height : Nat) : Option Image :=
  match carve img (img.width - width) with
  | none => none
  | some cx =>
    match carve (rotated cx.view) (img.height - height) with
    | none => none
    | some cy => some (image_view_to_buffer (rotated cy.view))

/-- A grayscale image built from row-major raw `u8` data, as
`GrayImage::from_raw` does in the tests. -/
def grayImage (w h : Nat) (raw : List Nat) : Image :=
  ⟨w, h, fun x y => [(raw.getD (x + y * w) 0 : Int)]⟩

/-!
## The energy function as the spec words it

Reference definition for the refinement claim about `energy_fn`.
-/

/-- Modelled from the spec's wording (§4.2): the energy of a cell is the sum,
over the vertical neighbour pair and the horizontal neighbour pair, of the
squared per-channel differences of the two neighbouring pixels, a neighbour
missing at an image edge being replaced by the centre pixel itself. -/
def energySpec (img : Image) (pos : Pos) : Nat :=
  let topY := if pos.y = 0 then pos.y else pos.y - 1
  let bottomY := if pos.y + 1 < img.height then pos.y + 1 else pos.y
  let leftX := if pos.x = 0 then pos.x else pos.x - 1
  let rightX := if pos.x + 1 < img.width then pos.x + 1 else pos.x
  square_diff_px (img.pixel pos.x topY) (img.pixel pos.x bottomY) +
    square_diff_px (img.pixel leftX pos.y) (img.pixel rightX pos.y)

/-- The 3×2 grayscale grid `[3,1,4,1,5,9]` from the spec's concrete scenario. -/
def energyExampleImage : Image := grayImage 3 2 [3, 1, 4, 1, 5, 9]

/-- The energy grid of an image, row-major. -/
def energyGrid (img : Image) : List Nat :=
  (List.range img.height).flatMap
    (fun y => (List.range img.width).map (fun x => energy_fn img ⟨x, y⟩))

/-- The positions a `RectIterator` state has yet to yield, assuming a proper
rectangle: the rest of the current row, then the remaining full rows. -/
def rectRemaining (it : RectIterator) : List Pos :=
  if it.currentY = it.endY then []
  else
    (List.range (it.endX - it.currentX)).map (fun i => ⟨it.currentX + i, it.currentY⟩) ++
      rectList ⟨it.startX, it.currentY + 1⟩ ⟨it.endX, it.endY⟩

/-- The 3×2 grayscale grid `[[0,0,1],[1,0,0]]` on which the incremental cache
diverges from brute-force recomputation at the second extraction. -/
def divergenceImage : Image := grayImage 3 2 [0, 0, 1, 1, 0, 0]

/-- First incremental extraction on `divergenceImage`. -/
def divergenceStep1 : Option (List Pos × SFState) :=
  (SFState.new ⟨3, 2⟩).extract_seam
    (fun p => energy_fn (Carved.new divergenceImage).view p)

/-- The carved view after removing the first seam. -/
def divergenceCarved : Carved :=
  (Carved.new divergenceImage).remove_seam ((divergenceStep1.map Prod.fst).getD [])

/-- Second incremental extraction, reusing the warm cache. -/
def divergenceStep2 : Option (List Pos) :=
  (((divergenceStep1.map Prod.snd).getD (SFState.new ⟨3, 2⟩)).extract_seam
    (fun p => energy_fn divergenceCarved.view p)).map Prod.fst

/-- Brute-force recomputation: a fresh `SeamFinder` sized to the carved grid,
all cumulative path costs computed from scratch, same lowest-x tie-breaking. -/
def divergenceBrute : Option (List Pos) :=
  ((SFState.new (max_pos divergenceCarved.view)).extract_seam
    (fun p => energy_fn divergenceCarved.view p)).map Prod.fst

/-- A stored element whose predecessor lies inside the grid one row up and
within one column of its cell. -/
def GoodElem (size : Pos) (p : Pos) (el : SeamElem) : Prop :=
  (el.predecessor p).x < size.x ∧ (el.predecessor p).x ≤ p.x + 1 ∧
    p.x ≤ (el.predecessor p).x + 1

/-- The cumulative energy the bottom scan reads at column `x` (0 for an
absent cell; the verified states have no absent bottom cells). -/
def scanKey (s : SFState) (h : Nat) (x : Nat) : Nat :=
  ((s.sf.contents.get ⟨x, h - 1⟩).map SeamElem.energy).getD 0

/-- The claimed invariant: every absent in-grid cell's x lies in `[lo, hi)`. -/
def SFInv (s : SFState) : Prop :=
  ∀ p : Pos, p.x < s.sf.size.x → p.y < s.sf.size.y →
    s.sf.contents.get p = none →
    s.dirty.lo ≤ p.x ∧ p.x < s.dirty.hi

/-- Well-formedness of the finder's matrix relative to its size. -/
def SFWF (s : SFState) : Prop :=
  s.sf.size.x ≤ s.sf.contents.original_width ∧
  s.sf.contents.current_width = s.sf.size.x ∧
  s.sf.contents.contents.length =
    s.sf.contents.original_width * s.sf.size.y

/-- Every stored element, read at any allocated position, resolves to a
predecessor x inside the allocated row width.  (Cells are only ever written
by `fill`, whose predecessors are clamped to the grid.) -/
def CellsBounded (s : SFState) : Prop :=
  ∀ p el, p.x < s.sf.contents.original_width → p.y < s.sf.size.y →
    s.sf.contents.get p = some el →
    (el.predecessor p).x < s.sf.contents.original_width

/-- **C7.** Wrapping a view in the axis-transpose adapter twice yields the
same dimensions and the same pixel value at every position as the unwrapped
view: `Rotated` composed with itself is the identity. -/
theorem rotated_rotated_id (img : Image) :
    (rotated (rotated img)).width = img.width ∧
    (rotated (rotated img)).height = img.height ∧
    (∀ x y : Nat, (rotated (rotated img)).pixel x y = img.pixel x y) :=
  ⟨rfl, rfl, fun _ _ => rfl⟩

/-- **C6.** For every grid and in-bounds position, `energy_fn` returns the
sum over the vertical and horizontal neighbour pairs of the squared
per-channel differences of the two neighbouring pixels, an edge-missing
neighbour being replaced by the centre pixel, and every pixel access of the
computation stays in bounds; on the 3×2 grid `[3,1,4,1,5,9]` the energy grid
is `[8,17,34,20,80,41]`. -/
theorem energy_fn_spec :
    (∀ (img : Image) (pos : Pos), pos.x < img.width → pos.y < img.height →
      energy_fn img pos = energySpec img pos ∧
      ∀ q ∈ pos.surrounding (max_pos img), q.x < img.width ∧ q.y < img.height) ∧
    energyGrid energyExampleImage = [8, 17, 34, 20, 80, 41] := by
  constructor
  · intro img pos hx hy
    obtain ⟨x, y⟩ := pos
    simp only [Pos.mk.injEq] at *
    constructor
    · have h1 : y - 1 = (if y = 0 then y else y - 1) := by split <;> omega
      have h2 : min (y + 1) (img.height - 1) =
          (if y + 1 < img.height then y + 1 else y) := by split <;> omega
      have h3 : x - 1 = (if x = 0 then x else x - 1) := by split <;> omega
      have h4 : min (x + 1) (img.width - 1) =
          (if x + 1 < img.width then x + 1 else x) := by split <;> omega
      show square_diff_px (img.pixel x (y - 1))
            (img.pixel x (min (y + 1) (img.height - 1))) +
          square_diff_px (img.pixel (x - 1) y)
            (img.pixel (min (x + 1) (img.width - 1)) y) = _
      rw [h1, h2, h3, h4]
      rfl
    · intro q hq
      simp only [Pos.surrounding, max_pos, List.mem_cons,
        List.not_mem_nil, or_false] at hq
      rcases hq with rfl | rfl | rfl | rfl <;> exact ⟨by simp; omega, by simp; omega⟩
  · decide

/-- Witness for C6: the general part applied at the in-bounds position
`(1, 0)` of the concrete 3×2 image. -/
theorem energy_fn_spec_witness :
    energy_fn energyExampleImage ⟨1, 0⟩ = energySpec energyExampleImage ⟨1, 0⟩ :=
  (energy_fn_spec.1 energyExampleImage ⟨1, 0⟩ (by decide) (by decide)).1

/-!
## The rectangle iterator (C9)

`RectIterator` yields the row-major rectangle for proper bounds, but on
degenerate bounds (`end.x ≤ start.x` with `start.y ≠ end.y`, or
`end.y < start.y`) it never returns `none`: the claim that those sequences
are empty is refuted below.
-/

/-- Decompose `rectList` into its first row and the remaining rows. -/
lemma rectList_cons_row (sx cy ex ey : Nat) (h : cy < ey) :
    rectList ⟨sx, cy⟩ ⟨ex, ey⟩ =
      (List.range (ex - sx)).map (fun i => ⟨sx + i, cy⟩) ++
        rectList ⟨sx, cy + 1⟩ ⟨ex, ey⟩ := by
  unfold rectList
  simp only
  rw [show ey - cy = (ey - (cy + 1)) + 1 from by omega]
  rfl

/-- Decompose the row-tail map into its head and the rest. -/
lemma rowTail_cons (cx cy ex : Nat) (h : cx < ex) :
    (List.range (ex - cx)).map (fun i => Pos.mk (cx + i) cy) =
      Pos.mk cx cy ::
        (List.range (ex - (cx + 1))).map (fun i => Pos.mk (cx + 1 + i) cy) := by
  have hk : ex - cx = (ex - (cx + 1)) + 1 := by omega
  rw [hk, List.range_succ_eq_map, List.map_cons, List.map_map]
  congr 1
  apply List.map_congr_left
  intro a _
  show Pos.mk (cx + (a + 1)) cy = Pos.mk (cx + 1 + a) cy
  congr 1
  omega

/-- At the start of a row, the remaining output is exactly the remaining
rectangle rows. -/
lemma rectRemaining_row_start (it : RectIterator) (hx : it.currentX = it.startX)
    (hy : it.currentY ≤ it.endY) :
    rectRemaining it = rectList ⟨it.startX, it.currentY⟩ ⟨it.endX, it.endY⟩ := by
  unfold rectRemaining
  by_cases h : it.currentY = it.endY
  · rw [if_pos h]
    unfold rectList
    simp only [h, Nat.sub_self]
    rfl
  · rw [if_neg h, hx]
    conv_rhs => rw [rectList_cons_row it.startX it.currentY it.endX it.endY (by omega)]

/-- An iterator sitting on its final row yields nothing more. -/
lemma rectIterator_take_done (it : RectIterator) (h : it.currentY = it.endY)
    (n : Nat) : it.take n = [] := by
  cases n with
  | zero => rfl
  | succ m => simp [RectIterator.take, RectIterator.next, h]

lemma rectIterator_take_remaining (n : Nat) :
    ∀ it : RectIterator, it.startX < it.endX → it.currentX < it.endX →
      it.currentY ≤ it.endY → (rectRemaining it).length < n →
      it.take n = rectRemaining it := by
  induction n with
  | zero => intro it _ _ _ h; omega
  | succ n ih =>
    intro it hsx hce hcy hlen
    by_cases hrow : it.currentY = it.endY
    · rw [rectIterator_take_done it hrow]
      rw [rectRemaining, if_pos hrow]
    · have hcylt : it.currentY < it.endY := by omega
      by_cases hwrap : it.currentX + 1 = it.endX
      · have hnext : it.next =
            some (⟨it.currentX, it.currentY⟩,
              { it with currentX := it.startX, currentY := it.currentY + 1 }) := by
          simp [RectIterator.next, hrow, hwrap]
        have hrem : rectRemaining it =
            ⟨it.currentX, it.currentY⟩ ::
              rectRemaining { it with currentX := it.startX, currentY := it.currentY + 1 } := by
          have hts : rectRemaining
                { it with currentX := it.startX, currentY := it.currentY + 1 } =
              rectList ⟨it.startX, it.currentY + 1⟩ ⟨it.endX, it.endY⟩ :=
            rectRemaining_row_start _ rfl
              (by show it.currentY + 1 ≤ it.endY; omega)
          rw [rectRemaining, if_neg hrow, hts,
            rowTail_cons it.currentX it.currentY it.endX hce,
            show it.endX - (it.currentX + 1) = 0 from by omega]
          simp
        rw [hrem]
        simp only [RectIterator.take, hnext]
        congr 1
        rw [hrem] at hlen
        simp only [List.length_cons] at hlen
        by_cases hlast : it.currentY + 1 = it.endY
        · rw [rectIterator_take_done _ (show _ = _ from hlast)]
          rw [rectRemaining, if_pos (show _ = _ from hlast)]
        · exact ih _ hsx hsx (by show it.currentY + 1 ≤ it.endY; omega) (by omega)
      · have hnext : it.next =
            some (⟨it.currentX, it.currentY⟩, { it with currentX := it.currentX + 1 }) := by
          simp [RectIterator.next, hrow, hwrap]
        have hrem : rectRemaining it =
            ⟨it.currentX, it.currentY⟩ ::
              rectRemaining { it with currentX := it.currentX + 1 } := by
          rw [rectRemaining, if_neg hrow,
            rowTail_cons it.currentX it.currentY it.endX hce]
          rw [rectRemaining, if_neg hrow]
          simp
        rw [hrem]
        simp only [RectIterator.take, hnext]
        congr 1
        rw [hrem] at hlen
        simp only [List.length_cons] at hlen
        exact ih _ hsx (by show it.currentX + 1 < it.endX; omega)
          (by show it.currentY ≤ it.endY; omega) (by omega)

lemma rectRows_length (sx ex : Nat) :
    ∀ k cy : Nat, (rectRows sx ex cy k).length = k * (ex - sx) := by
  intro k
  induction k with
  | zero => intro cy; simp [rectRows]
  | succ m ih =>
    intro cy
    simp only [rectRows, List.length_append, List.length_map, List.length_range, ih]
    ring

lemma rectRows_mem (sx ex : Nat) :
    ∀ k cy p, p ∈ rectRows sx ex cy k ↔
      (sx ≤ p.x ∧ p.x < ex ∧ cy ≤ p.y ∧ p.y < cy + k) := by
  intro k
  induction k with
  | zero =>
    intro cy p
    simp only [rectRows, List.not_mem_nil, false_iff]
    omega
  | succ m ih =>
    intro cy p
    simp only [rectRows, List.mem_append, List.mem_map, List.mem_range, ih]
    constructor
    · rintro (⟨i, hi, rfl⟩ | h)
      · dsimp only
        omega
      · omega
    · intro h
      by_cases hrow : p.y = cy
      · left
        refine ⟨p.x - sx, by omega, ?_⟩
        rcases p with ⟨px, py⟩
        dsimp only at h hrow ⊢
        simp only [Pos.mk.injEq]
        omega
      · right
        omega

/-- The length of the rectangle enumeration. -/
lemma rectList_length (start stop : Pos) :
    (rectList start stop).length = (stop.y - start.y) * (stop.x - start.x) :=
  rectRows_length _ _ _ _

/-- Membership in the rectangle enumeration: exactly the positions of the
half-open rectangle `[start, stop)`. -/
lemma rectList_mem (start stop : Pos) (p : Pos) :
    p ∈ rectList start stop ↔
      (start.x ≤ p.x ∧ p.x < stop.x ∧ start.y ≤ p.y ∧ p.y < stop.y) := by
  unfold rectList
  rw [rectRows_mem]
  omega

/-- **C9 (amended).** `iter_in_rect` yields exactly the positions of the
half-open rectangle `[start, stop)` in row-major order whenever the rectangle
is proper (`start.x < stop.x` and `start.y ≤ stop.y`): with any unfolding
budget beyond the rectangle's size, the iterator's output is precisely
`rectList start stop`, whose members are exactly the in-rectangle positions;
and the sequence is empty when `stop.y = start.y`.  (For the remaining
degenerate bounds the iterator never terminates; see the counterexample.) -/
theorem iter_in_rect_rowmajor :
    (∀ start stop : Pos, start.y = stop.y →
      (Pos.iter_in_rect start stop).next = none) ∧
    (∀ start stop : Pos, start.x < stop.x → start.y ≤ stop.y →
      ∀ n, (stop.y - start.y) * (stop.x - start.x) < n →
        (Pos.iter_in_rect start stop).take n = rectList start stop ∧
        ∀ p, p ∈ rectList start stop ↔
          (start.x ≤ p.x ∧ p.x < stop.x ∧ start.y ≤ p.y ∧ p.y < stop.y)) := by
  constructor
  · intro start stop h
    simp [Pos.iter_in_rect, RectIterator.next, h]
  · intro start stop hx hy n hn
    constructor
    · have hrem : rectRemaining (Pos.iter_in_rect start stop) = rectList start stop :=
        rectRemaining_row_start _ rfl hy
      rw [← hrem]
      apply rectIterator_take_remaining
      · exact hx
      · exact hx
      · exact hy
      · rw [hrem, rectList_length]
        exact hn
    · exact rectList_mem start stop

/-- Witness for C9: the amended statement applied to the rectangle
`[(1,1), (3,4))` with unfolding budget 7. -/
theorem iter_in_rect_rowmajor_witness :
    (Pos.iter_in_rect ⟨1, 1⟩ ⟨3, 4⟩).take 7 = rectList ⟨1, 1⟩ ⟨3, 4⟩ :=
  (iter_in_rect_rowmajor.2 ⟨1, 1⟩ ⟨3, 4⟩ (by decide) (by decide) 7 (by decide)).1

/-- **C9 (counterexample).** The claim that `iter_in_rect start end` is empty
whenever `end.x ≤ start.x` fails: for `start = (0,0)`, `end = (0,1)` the
claimed sequence is empty, but the iterator yields `(0,0), (1,0), (2,0), …` —
it never returns `none` and the positions are not even inside the rectangle. -/
theorem iter_in_rect_degenerate_not_empty :
    (Pos.iter_in_rect ⟨0, 0⟩ ⟨0, 1⟩).take 3 = [⟨0, 0⟩, ⟨1, 0⟩, ⟨2, 0⟩] ∧
    rectList ⟨0, 0⟩ ⟨0, 1⟩ = [] := by
  decide

/-!
## Cache/no-cache divergence (C1)

Removing a seam changes the local energies of the columns bordering the seam
(their neighbourhood now spans the removed column), but `extract_seam` clears
only the cells whose cached *path* went through a cleared cell, so those
bordering cells keep stale cached energies.  On the grid below the stale
value makes the warm cache pick a different second seam than a fresh
recomputation.
-/

/-- **C1.** On the 3×2 grid `[[0,0,1],[1,0,0]]`, the first extraction removes
the seam `(1,1),(0,0)`; at the second extraction the incremental `SeamFinder`
(warm cache, dirty-range fill, exact predecessor-based clearing) returns the
seam through `x = 1`, while brute-force recomputation of all cumulative path
costs from scratch on the same carved grid chooses the seam through `x = 0`
under the lowest-x tie-breaking: the claimed cache/no-cache equivalence fails.
(The cell kept a stale cached cost of 2 where a fresh computation gives 3,
because clearing follows only path dependencies, not local-energy changes
beside the removed seam.) -/
theorem cache_nocache_divergence :
    divergenceStep1.map Prod.fst = some [⟨1, 1⟩, ⟨0, 0⟩] ∧
    divergenceStep2 = some [⟨1, 1⟩, ⟨0, 0⟩] ∧
    divergenceBrute = some [⟨0, 1⟩, ⟨0, 0⟩] ∧
    divergenceStep2 ≠ divergenceBrute := by
  refine ⟨by decide, by decide, by decide, by decide⟩

/-!
## Resize orchestration: dimensions and identity (C3, C4, C5)
-/

lemma carveSteps_img_removed :
    ∀ (k : Nat) (c : Carved) (f : SFState) (c' : Carved) (f' : SFState),
      carveSteps k c f = some (c', f') →
      c'.img = c.img ∧ c'.removed = c.removed + k := by
  intro k
  induction k with
  | zero =>
    intro c f c' f' h
    simp only [carveSteps, Option.some.injEq, Prod.mk.injEq] at h
    obtain ⟨rfl, rfl⟩ := h
    exact ⟨rfl, by omega⟩
  | succ m ih =>
    intro c f c' f' h
    simp only [carveSteps] at h
    rcases he : f.extract_seam (fun p => energy_fn c.view p) with _ | ⟨seam, f₁⟩
    · rw [he] at h
      exact absurd h (by simp)
    · rw [he] at h
      have := ih (c.remove_seam seam) f₁ c' f' h
      simp only [Carved.remove_seam] at this
      exact ⟨this.1, by omega⟩

lemma carve_view_dims (img : Image) (k : Nat) (c : Carved) :
    carve img k = some c →
    c.view.width = img.width - k ∧ c.view.height = img.height := by
  intro h
  unfold carve at h
  rcases hrun : carveSteps k (Carved.new img) (SFState.new (max_pos img)) with _ | p
  · rw [hrun] at h
    exact absurd h (by simp)
  · rw [hrun] at h
    obtain ⟨c₁, f₁⟩ := p
    simp only [Option.map] at h
    have hir := carveSteps_img_removed k (Carved.new img) (SFState.new (max_pos img)) c₁ f₁ hrun
    simp only [Option.some.injEq] at h
    subst h
    simp only [Carved.new] at hir
    simp only [Carved.view, hir.1, hir.2]
    exact ⟨by omega, trivial⟩

/-- The dimensions a successful `resize` returns, in terms of the source
dimensions and the requested target. -/
lemma resize_some_dims (img : Image) (w h : Nat) (buf : Image) :
    resize img w h = some buf →
    buf.width = img.width - (img.width - w) ∧
    buf.height = img.height - (img.height - h) := by
  intro hr
  unfold resize at hr
  rcases hx : carve img (img.width - w) with _ | cx
  · rw [hx] at hr
    exact absurd hr (by simp)
  · rw [hx] at hr
    dsimp only at hr
    rcases hy : carve (rotated cx.view) (img.height - h) with _ | cy
    · rw [hy] at hr
      exact absurd hr (by simp)
    · rw [hy] at hr
      simp only [Option.some.injEq] at hr
      have hdx := carve_view_dims img (img.width - w) cx hx
      have hdy := carve_view_dims (rotated cx.view) (img.height - h) cy hy
      subst hr
      simp only [image_view_to_buffer, rotated] at *
      constructor
      · exact hdy.2.trans hdx.1
      · rw [hdx.2] at hdy
        exact hdy.1

/-- **C3.** Whenever `resize(image, width, height)` returns a buffer, its
dimensions are exactly `(min width source_width, min height source_height)`;
in particular neither axis ever exceeds the source axis. -/
theorem resize_dims (img : Image) (w h : Nat) (buf : Image) :
    resize img w h = some buf →
    buf.width = min w img.width ∧ buf.height = min h img.height ∧
    buf.width ≤ img.width ∧ buf.height ≤ img.height := by
  intro hr
  have hd := resize_some_dims img w h buf hr
  refine ⟨by omega, by omega, by omega, by omega⟩

/-- Witness for C3: resizing a concrete 2×1 image to 1×1 yields a 1×1
buffer. -/
theorem resize_dims_witness :
    ((resize (grayImage 2 1 [3, 9]) 1 1).map Image.width,
     (resize (grayImage 2 1 [3, 9]) 1 1).map Image.height) = (some 1, some 1) := by
  rcases hr : resize (grayImage 2 1 [3, 9]) 1 1 with _ | buf
  · have : (resize (grayImage 2 1 [3, 9]) 1 1).isSome = true := by decide
    rw [hr] at this
    simp at this
  · have hd := resize_dims (grayImage 2 1 [3, 9]) 1 1 buf hr
    simp only [hr, Option.map_some, Prod.mk.injEq, Option.some.injEq]
    exact ⟨by simpa using hd.1, by simpa using hd.2.1⟩

/-- **C5.** Resizing a 1×1 image to 0×0 succeeds and yields an empty buffer
with dimensions `(0, 0)`; and in general a target of zero on an axis is
valid: whenever `resize` returns, a zero target width yields width 0 and a
zero target height yields height 0. -/
theorem resize_single_pixel_to_zero :
    ((resize (grayImage 1 1 [42]) 0 0).map (fun b => (b.width, b.height)) =
      some (0, 0)) ∧
    (∀ (img : Image) (w h : Nat) (buf : Image), resize img w h = some buf →
      (w = 0 → buf.width = 0) ∧ (h = 0 → buf.height = 0)) := by
  constructor
  · decide
  · intro img w h buf hr
    have hd := resize_some_dims img w h buf hr
    constructor
    · intro hw
      omega
    · intro hh
      omega

/-- Witness for C5: the general zero-target statement applied to the
1×1 → 0×0 run itself. -/
theorem resize_single_pixel_to_zero_witness :
    (resize (grayImage 1 1 [42]) 0 0).map Image.width = some 0 := by
  rcases hr : resize (grayImage 1 1 [42]) 0 0 with _ | buf
  · have : (resize (grayImage 1 1 [42]) 0 0).isSome = true := by decide
    rw [hr] at this
    simp at this
  · have hd := (resize_single_pixel_to_zero.2 (grayImage 1 1 [42]) 0 0 buf hr).1 rfl
    simp [hr, hd]

lemma Matrix_get_from_fn {α : Type} [Inhabited α] (size : Pos) (f : Nat → Nat → α)
    (p : Pos) (hx : p.x < size.x) (hy : p.y < size.y) :
    (Matrix.from_fn size f).get p = f p.x p.y := by
  have hw : 0 < size.x := by omega
  have hidx : p.x + p.y * size.x < size.x * size.y := by
    calc p.x + p.y * size.x < size.x + p.y * size.x := by omega
    _ = (p.y + 1) * size.x := by ring
    _ ≤ size.y * size.x := Nat.mul_le_mul_right _ (by omega)
    _ = size.x * size.y := Nat.mul_comm _ _
  unfold Matrix.from_fn Matrix.get
  rw [List.getD_eq_getElem?_getD, List.getElem?_map, List.getElem?_range hidx]
  show f ((p.x + p.y * size.x) % size.x) ((p.x + p.y * size.x) / size.x) = f p.x p.y
  congr 1
  · rw [Nat.add_mul_mod_self_right, Nat.mod_eq_of_lt hx]
  · rw [Nat.add_mul_div_right _ _ hw, Nat.div_eq_of_lt hx]
    omega

/-- A fresh `Carved` view reads the source pixels unchanged in bounds. -/
lemma Carved_new_view_pixel (img : Image) (x y : Nat)
    (hx : x < img.width) (hy : y < img.height) :
    (Carved.new img).view.pixel x y = img.pixel x y := by
  simp only [Carved.new, Carved.view]
  rw [Matrix_get_from_fn (max_pos img) _ ⟨x, y⟩ hx hy]

/-- **C4.** For `w ≥ img.width` and `h ≥ img.height`, `resize img w h`
removes zero seams on both axes, succeeds, and returns a buffer with the
source dimensions whose pixels agree with the source at every in-bounds
position. -/
theorem resize_noop_above_source (img : Image) (w h : Nat)
    (hw : img.width ≤ w) (hh : img.height ≤ h) :
    ∃ buf, resize img w h = some buf ∧
      buf.width = img.width ∧ buf.height = img.height ∧
      ∀ x y, x < img.width → y < img.height → buf.pixel x y = img.pixel x y := by
  have hzx : img.width - w = 0 := by omega
  have hzy : img.height - h = 0 := by omega
  have hcx : carve img (img.width - w) = some (Carved.new img) := by
    rw [hzx]
    rfl
  refine ⟨image_view_to_buffer
      (rotated (Carved.new (rotated (Carved.new img).view)).view), ?_, ?_, ?_, ?_⟩
  · unfold resize
    rw [hcx]
    dsimp only
    rw [show img.height - h = 0 from hzy]
    rfl
  · simp [image_view_to_buffer, rotated, Carved.view, Carved.new]
  · simp [image_view_to_buffer, rotated, Carved.view, Carved.new]
  · intro x y hx' hy'
    show (Carved.new (rotated (Carved.new img).view)).view.pixel y x = img.pixel x y
    rw [Carved_new_view_pixel (rotated (Carved.new img).view) y x
      (by simpa [rotated, Carved.view, Carved.new] using hy')
      (by simpa [rotated, Carved.view, Carved.new] using hx')]
    show (Carved.new img).view.pixel x y = img.pixel x y
    exact Carved_new_view_pixel img x y hx' hy'

/-- Witness for C4: resizing a concrete 2×2 image to 3×3 returns it
pixel-for-pixel. -/
theorem resize_noop_above_source_witness :
    ∃ buf, resize (grayImage 2 2 [1, 2, 3, 4]) 3 3 = some buf ∧
      buf.width = 2 ∧ buf.height = 2 ∧
      ∀ x y, x < 2 → y < 2 → buf.pixel x y = (grayImage 2 2 [1, 2, 3, 4]).pixel x y := by
  have h := resize_noop_above_source (grayImage 2 2 [1, 2, 3, 4]) 3 3
    (by decide) (by decide)
  rcases h with ⟨buf, h1, h2, h3, h4⟩
  exact ⟨buf, h1, h2, h3, fun x y hx hy => h4 x y hx hy⟩

/-!
## Matrix access and neighbour-list lemmas
-/

lemma matrix_index_lt (size : Pos) (p : Pos) (hx : p.x < size.x) (hy : p.y < size.y) :
    p.x + p.y * size.x < size.x * size.y := by
  calc p.x + p.y * size.x < size.x + p.y * size.x := by omega
  _ = (p.y + 1) * size.x := by ring
  _ ≤ size.y * size.x := Nat.mul_le_mul_right _ (by omega)
  _ = size.x * size.y := Nat.mul_comm _ _

lemma matrix_index_inj (ow : Nat) (p q : Pos) (hp : p.x < ow) (hq : q.x < ow)
    (h : p.x + p.y * ow = q.x + q.y * ow) : p = q := by
  have how : 0 < ow := by omega
  have hx : p.x = q.x := by
    have h1 : (p.x + p.y * ow) % ow = p.x := by
      rw [Nat.add_mul_mod_self_right, Nat.mod_eq_of_lt hp]
    have h2 : (q.x + q.y * ow) % ow = q.x := by
      rw [Nat.add_mul_mod_self_right, Nat.mod_eq_of_lt hq]
    rw [← h1, ← h2, h]
  have hy : p.y = q.y := by
    have := h
    rw [hx] at this
    have h3 : p.y * ow = q.y * ow := by omega
    exact Nat.eq_of_mul_eq_mul_right how h3
  rcases p with ⟨a, b⟩
  rcases q with ⟨c, d⟩
  simp only [Pos.mk.injEq]
  exact ⟨hx, hy⟩

lemma Matrix_length_set {α : Type} (m : Matrix α) (p : Pos) (v : α) :
    (m.set p v).contents.length = m.contents.length := by
  simp [Matrix.set]

lemma Matrix_ow_set {α : Type} (m : Matrix α) (p : Pos) (v : α) :
    (m.set p v).original_width = m.original_width := rfl

lemma Matrix_cw_set {α : Type} (m : Matrix α) (p : Pos) (v : α) :
    (m.set p v).current_width = m.current_width := rfl

lemma Matrix_get_set_self {α : Type} [Inhabited α] (m : Matrix α) (p : Pos) (v : α)
    (h : p.x + p.y * m.original_width < m.contents.length) :
    (m.set p v).get p = v := by
  unfold Matrix.get Matrix.set
  simp only [List.getD_eq_getElem?_getD, List.getElem?_set_self h, Option.getD_some]

lemma Matrix_get_set_ne {α : Type} [Inhabited α] (m : Matrix α) (p q : Pos) (v : α)
    (h : p.x + p.y * m.original_width ≠ q.x + q.y * m.original_width) :
    (m.set p v).get q = m.get q := by
  unfold Matrix.get Matrix.set
  simp only [List.getD_eq_getElem?_getD, List.getElem?_set_ne h]

lemma Matrix_get_set_pos_ne {α : Type} [Inhabited α] (m : Matrix α) (p q : Pos) (v : α)
    (hp : p.x < m.original_width) (hq : q.x < m.original_width) (hne : p ≠ q) :
    (m.set p v).get q = m.get q := by
  apply Matrix_get_set_ne
  intro hcol
  exact hne (matrix_index_inj m.original_width p q hp hq hcol)

lemma posLine_mem (xStart xEnd y : Nat) (q : Pos) (h : q ∈ posLine xStart xEnd y) :
    xStart ≤ q.x ∧ q.x ≤ xEnd ∧ q.y = y := by
  unfold posLine at h
  simp only [List.mem_map, List.mem_range] at h
  rcases h with ⟨i, hi, rfl⟩
  dsimp only
  omega

lemma successors_mem (p size q : Pos) (hsz : 1 ≤ size.x) (h : q ∈ p.successors size) :
    q.y = p.y + 1 ∧ p.y + 1 < size.y ∧ q.x < size.x ∧
      p.x ≤ q.x + 1 ∧ q.x ≤ p.x + 1 := by
  unfold Pos.successors at h
  split at h
  · next hy =>
    have hm := posLine_mem _ _ _ _ h
    have hx1 : q.x ≤ min (p.x + 1) (size.x - 1) := hm.2.1
    refine ⟨hm.2.2, hy, by omega, by omega, by omega⟩
  · exact absurd h (List.not_mem_nil _)

lemma predecessors_mem (p size q : Pos) (h : q ∈ p.predecessors size) :
    q.y = p.y - 1 ∧ 1 ≤ p.y ∧ q.x ≤ min (p.x + 1) (size.x - 1) ∧
      p.x ≤ q.x + 1 := by
  unfold Pos.predecessors at h
  split at h
  · next hy =>
    have hm := posLine_mem _ _ _ _ h
    refine ⟨hm.2.2, hy, hm.2.1, by have := hm.1; omega⟩
  · exact absurd h (List.not_mem_nil _)

lemma posLine_mem_of (xStart xEnd y : Nat) (x : Nat) (h1 : xStart ≤ x) (h2 : x ≤ xEnd) :
    Pos.mk x y ∈ posLine xStart xEnd y := by
  unfold posLine
  simp only [List.mem_map, List.mem_range]
  exact ⟨x - xStart, by omega, by congr 1; omega⟩

/-!
## The fill pass on a fresh finder (C2, C8)
-/

lemma Matrix_get_set_cases {α : Type} [Inhabited α] (m : Matrix α) (p q : Pos) (v : α) :
    (m.set p v).get q = v ∨ (m.set p v).get q = m.get q := by
  unfold Matrix.get Matrix.set
  simp only [List.getD_eq_getElem?_getD, List.getElem?_set]
  split
  · split
    · simp
    · right
      next h hlen =>
      rw [← h]
      rw [List.getElem?_eq_none (by omega)]
  · right
    rfl

lemma fillCell_good (size : Pos) (c : Matrix (Option SeamElem)) (e : Pos → Nat)
    (pos : Pos) (hx : pos.x < size.x) :
    GoodElem size pos (fillCell size c e pos) := by
  have hfold : ∀ (l : List Pos), (∀ q ∈ l, q ∈ pos.predecessors size) →
      ∀ acc : SeamElem,
      (acc.predecessor_dx = 0 ∨
        ∃ q ∈ pos.predecessors size, acc.predecessor_dx = (q.x : Int) - (pos.x : Int)) →
      ((l.foldl
        (fun best pred =>
          match c.get pred with
          | some e' =>
            if e'.energy + e pos < best.energy then
              ⟨(pred.x : Int) - (pos.x : Int), e'.energy + e pos⟩
            else best
          | none => best) acc).predecessor_dx = 0 ∨
        ∃ q ∈ pos.predecessors size,
          (l.foldl
            (fun best pred =>
              match c.get pred with
              | some e' =>
                if e'.energy + e pos < best.energy then
                  ⟨(pred.x : Int) - (pos.x : Int), e'.energy + e pos⟩
                else best
              | none => best) acc).predecessor_dx = (q.x : Int) - (pos.x : Int)) := by
    intro l
    induction l with
    | nil => intro _ acc hacc; exact hacc
    | cons p' rest ih =>
      intro hsub acc hacc
      simp only [List.foldl_cons]
      apply ih (fun q hq => hsub q (List.mem_cons_of_mem _ hq))
      rcases hget : c.get p' with _ | e'
      · exact hacc
      · dsimp only
        split
        · right
          exact ⟨p', hsub p' (List.mem_cons_self p' rest), rfl⟩
        · exact hacc
  have hdx := hfold (pos.predecessors size) (fun q hq => hq) (SeamElem.new U32MAX)
    (Or.inl rfl)
  unfold fillCell
  dsimp only
  set best := (pos.predecessors size).foldl
    (fun best pred =>
      match c.get pred with
      | some e' =>
        if e'.energy + e pos < best.energy then
          ⟨(pred.x : Int) - (pos.x : Int), e'.energy + e pos⟩
        else best
      | none => best) (SeamElem.new U32MAX) with hbest
  have hfinal : ∀ el : SeamElem,
      (el.predecessor_dx = 0 ∨
        ∃ q ∈ pos.predecessors size, el.predecessor_dx = (q.x : Int) - (pos.x : Int)) →
      GoodElem size pos el := by
    intro el hel
    rcases hel with h0 | ⟨q, hq, hdxq⟩
    · unfold GoodElem SeamElem.predecessor
      rw [h0]
      simp only [Int.add_zero, Int.toNat_natCast]
      exact ⟨hx, by omega, by omega⟩
    · have hm := predecessors_mem pos size q hq
      have hqx : ((pos.x : Int) + el.predecessor_dx).toNat = q.x := by
        rw [hdxq]
        have : (pos.x : Int) + ((q.x : Int) - (pos.x : Int)) = (q.x : Int) := by ring
        rw [this, Int.toNat_natCast]
      unfold GoodElem SeamElem.predecessor
      dsimp only
      rw [hqx]
      have hqlt : q.x < size.x := by
        have := hm.2.2.1
        omega
      exact ⟨hqlt, by have := hm.2.2; omega, by have := hm.2.2; omega⟩
  split
  · exact hfinal _ (by rcases hdx with h | h; exact Or.inl h; exact Or.inr h)
  · exact hfinal _ hdx

lemma fill_foldl_length (size : Pos) (e : Pos → Nat) :
    ∀ (ps : List Pos) (c : Matrix (Option SeamElem)),
      (ps.foldl (fillStep size e) c).contents.length = c.contents.length ∧
      (ps.foldl (fillStep size e) c).original_width = c.original_width ∧
      (ps.foldl (fillStep size e) c).current_width = c.current_width := by
  intro ps
  induction ps with
  | nil => intro c; exact ⟨rfl, rfl, rfl⟩
  | cons p rest ih =>
    intro c
    simp only [List.foldl_cons]
    have h := ih (fillStep size e c p)
    have hstep : (fillStep size e c p).contents.length = c.contents.length ∧
        (fillStep size e c p).original_width = c.original_width ∧
        (fillStep size e c p).current_width = c.current_width := by
      unfold fillStep
      split
      · exact ⟨rfl, rfl, rfl⟩
      · exact ⟨Matrix_length_set _ _ _, rfl, rfl⟩
    exact ⟨h.1.trans hstep.1, (h.2.1).trans hstep.2.1, (h.2.2).trans hstep.2.2⟩

lemma fill_foldl_some (size : Pos) (e : Pos → Nat) :
    ∀ (ps : List Pos) (c : Matrix (Option SeamElem)),
      size.x ≤ c.original_width →
      c.contents.length = c.original_width * size.y →
      ∀ q : Pos, q.x < size.x → q.y < size.y →
      (q ∈ ps ∨ (c.get q).isSome) →
      ((ps.foldl (fillStep size e) c).get q).isSome := by
  intro ps
  induction ps with
  | nil =>
    intro c _ _ q _ _ hq
    rcases hq with h | h
    · exact absurd h (List.not_mem_nil _)
    · exact h
  | cons p rest ih =>
    intro c how hlen q hqx hqy hq
    simp only [List.foldl_cons]
    have hstep_wf : (fillStep size e c p).original_width = c.original_width ∧
        (fillStep size e c p).contents.length = c.contents.length := by
      unfold fillStep
      split
      · exact ⟨rfl, rfl⟩
      · exact ⟨rfl, Matrix_length_set _ _ _⟩
    apply ih (fillStep size e c p) (by rw [hstep_wf.1]; exact how)
      (by rw [hstep_wf.2, hstep_wf.1]; exact hlen) q hqx hqy
    rcases hq with hmem | hsome
    · rcases List.mem_cons.mp hmem with rfl | hrest
      · right
        unfold fillStep
        split
        · next hs => exact hs
        · rw [Matrix_get_set_self]
          · rfl
          · rw [hlen]
            have hq' : q.x + q.y * c.original_width <
                c.original_width * size.y := by
              calc q.x + q.y * c.original_width
                  < c.original_width + q.y * c.original_width := by omega
              _ = (q.y + 1) * c.original_width := by ring
              _ ≤ size.y * c.original_width := Nat.mul_le_mul_right _ (by omega)
              _ = c.original_width * size.y := Nat.mul_comm _ _
            exact hq'
      · left
        exact hrest
    · right
      unfold fillStep
      split
      · exact hsome
      · rcases Matrix_get_set_cases c p q (some (fillCell size c e p)) with hc | hc
        · rw [hc]
          rfl
        · rw [hc]
          exact hsome

lemma fill_foldl_good (size : Pos) (e : Pos → Nat) :
    ∀ (ps : List Pos) (c : Matrix (Option SeamElem)),
      c.original_width = size.x →
      c.contents.length = size.x * size.y →
      (∀ p ∈ ps, p.x < size.x ∧ p.y < size.y) →
      (∀ q el, q.x < size.x → q.y < size.y → c.get q = some el → GoodElem size q el) →
      ∀ q el, q.x < size.x → q.y < size.y →
        (ps.foldl (fillStep size e) c).get q = some el → GoodElem size q el := by
  intro ps
  induction ps with
  | nil =>
    intro c _ _ _ hgood q el hqx hqy hget
    exact hgood q el hqx hqy hget
  | cons p rest ih =>
    intro c how hlen hps hgood q el hqx hqy hget
    simp only [List.foldl_cons] at hget
    have hp := hps p (List.mem_cons_self p rest)
    have hstep_wf : (fillStep size e c p).original_width = c.original_width ∧
        (fillStep size e c p).contents.length = c.contents.length := by
      unfold fillStep
      split
      · exact ⟨rfl, rfl⟩
      · exact ⟨rfl, Matrix_length_set _ _ _⟩
    refine ih (fillStep size e c p) (hstep_wf.1.trans how)
      (hstep_wf.2.trans hlen)
      (fun p' hp' => hps p' (List.mem_cons_of_mem _ hp'))
      ?_ q el hqx hqy hget
    intro q' el' hq'x hq'y hget'
    unfold fillStep at hget'
    split at hget'
    · exact hgood q' el' hq'x hq'y hget'
    · by_cases hpq : p = q'
      · subst hpq
        rw [Matrix_get_set_self _ _ _ (by
          rw [hlen, how]
          exact matrix_index_lt size p hp.1 hp.2)] at hget'
        have := Option.some.inj hget'
        rw [← this]
        exact fillCell_good size c e p hp.1
      · rw [Matrix_get_set_pos_ne _ _ _ _ (by omega) (by omega) hpq] at hget'
        exact hgood q' el' hq'x hq'y hget'

/-- After `fill` on a freshly constructed finder, every in-grid cell holds a
`GoodElem`. -/
lemma fill_new_good (w h : Nat) (e : Pos → Nat) :
    ∀ q : Pos, q.x < w → q.y < h →
      ∃ el, ((SFState.new ⟨w, h⟩).fill e).sf.contents.get q = some el ∧
        GoodElem ⟨w, h⟩ q el := by
  intro q hqx hqy
  have hnew_get : ∀ q' : Pos, q'.x < w → q'.y < h →
      (SFState.new ⟨w, h⟩).sf.contents.get q' = (none : Option SeamElem) := by
    intro q' h1 h2
    exact Matrix_get_from_fn ⟨w, h⟩ _ q' h1 h2
  have how : (SFState.new ⟨w, h⟩).sf.contents.original_width = w := rfl
  have hlen : (SFState.new ⟨w, h⟩).sf.contents.contents.length = w * h := by
    simp [SFState.new, Matrix.from_fn]
  have hmem : q ∈ rectList ⟨0, 0⟩ ⟨w, h⟩ := by
    rw [rectList_mem]
    dsimp only
    omega
  have hsome := fill_foldl_some ⟨w, h⟩ e (rectList ⟨0, 0⟩ ⟨w, h⟩)
    (SFState.new ⟨w, h⟩).sf.contents (by rw [how]) (by rw [hlen, how]) q hqx hqy
    (Or.inl hmem)
  have hdirty : (SFState.new ⟨w, h⟩).dirty = ⟨0, w⟩ := rfl
  have hfill_eq : ((SFState.new ⟨w, h⟩).fill e).sf.contents =
      (rectList ⟨0, 0⟩ ⟨w, h⟩).foldl (fillStep ⟨w, h⟩ e)
        (SFState.new ⟨w, h⟩).sf.contents := rfl
  rw [hfill_eq]
  rcases hget : ((rectList ⟨0, 0⟩ ⟨w, h⟩).foldl (fillStep ⟨w, h⟩ e)
      (SFState.new ⟨w, h⟩).sf.contents).get q with _ | el
  · rw [hget] at hsome
    exact absurd hsome (by simp)
  · refine ⟨el, rfl, ?_⟩
    refine fill_foldl_good ⟨w, h⟩ e (rectList ⟨0, 0⟩ ⟨w, h⟩)
      (SFState.new ⟨w, h⟩).sf.contents how hlen ?_ ?_ q el hqx hqy hget
    · intro p hp
      rw [rectList_mem] at hp
      show p.x < w ∧ p.y < h
      have hp1 : (0 : Nat) ≤ p.x ∧ p.x < w ∧ (0 : Nat) ≤ p.y ∧ p.y < h := hp
      exact ⟨hp1.2.1, hp1.2.2.2⟩
    · intro q' el' h1 h2 hget'
      rw [hnew_get q' h1 h2] at hget'
      exact absurd hget' (by simp)

/-!
## The bottom-row scan (C8)
-/

lemma scanFold_spec (s : SFState) (hy : Nat) :
    ∀ n : Nat, 1 ≤ n →
      ∃ x0, x0 < n ∧
        ((List.range n).map (fun x => Pos.mk x hy)).foldl
          (fun acc c =>
            let k := ((s.sf.contents.get c).map SeamElem.energy).getD 0
            match acc with
            | none => some (c, k)
            | some (b, kb) => if k < kb then some (c, k) else some (b, kb))
          none = some (⟨x0, hy⟩, ((s.sf.contents.get ⟨x0, hy⟩).map SeamElem.energy).getD 0) ∧
        (∀ x, x < n →
          ((s.sf.contents.get ⟨x0, hy⟩).map SeamElem.energy).getD 0 ≤
            ((s.sf.contents.get ⟨x, hy⟩).map SeamElem.energy).getD 0) ∧
        (∀ x, x < x0 →
          ((s.sf.contents.get ⟨x0, hy⟩).map SeamElem.energy).getD 0 <
            ((s.sf.contents.get ⟨x, hy⟩).map SeamElem.energy).getD 0) := by
  intro n
  induction n with
  | zero => intro h; omega
  | succ m ih =>
    intro _
    rcases Nat.eq_zero_or_pos m with rfl | hm
    · refine ⟨0, by omega, ?_, ?_, ?_⟩
      · rfl
      · intro x hx
        have : x = 0 := by omega
        subst this
        exact Nat.le_refl _
      · intro x hx
        omega
    · rcases ih hm with ⟨x0, hx0, hfold, hmin, hstrict⟩
      rw [List.range_succ, List.map_append, List.foldl_append, hfold]
      simp only [List.map_cons, List.map_nil, List.foldl_cons, List.foldl_nil]
      by_cases hlt : ((s.sf.contents.get ⟨m, hy⟩).map SeamElem.energy).getD 0 <
          ((s.sf.contents.get ⟨x0, hy⟩).map SeamElem.energy).getD 0
      · refine ⟨m, by omega, ?_, ?_, ?_⟩
        · simp only [if_pos hlt]
        · intro x hx
          rcases Nat.lt_or_ge x m with h1 | h1
          · exact Nat.le_of_lt (Nat.lt_of_lt_of_le hlt (hmin x h1))
          · have : x = m := by omega
            subst this
            exact Nat.le_refl _
        · intro x hx
          exact Nat.lt_of_lt_of_le hlt (hmin x hx)
      · refine ⟨x0, by omega, ?_, ?_, ?_⟩
        · simp only [if_neg hlt]
        · intro x hx
          rcases Nat.lt_or_ge x m with h1 | h1
          · exact hmin x h1
          · have : x = m := by omega
            subst this
            omega
        · exact hstrict

lemma bottomScan_filled (s : SFState) (w h : Nat) (hsz : s.sf.size = ⟨w, h⟩)
    (hw : 1 ≤ w) (hh : 1 ≤ h)
    (hfilled : ∀ x, x < w → (s.sf.contents.get ⟨x, h - 1⟩).isSome) :
    ∃ x0, bottomScan s = some (some ⟨x0, h - 1⟩) ∧ x0 < w ∧
      (∀ x, x < w → scanKey s h x0 ≤ scanKey s h x) ∧
      (∀ x, x < x0 → scanKey s h x0 < scanKey s h x) := by
  rcases scanFold_spec s (h - 1) w hw with ⟨x0, hx0, hfold, hmin, hstrict⟩
  refine ⟨x0, ?_, hx0, hmin, hstrict⟩
  unfold bottomScan
  rw [hsz]
  dsimp only
  rw [if_neg (by omega)]
  rw [if_pos (by
    rw [List.all_eq_true]
    intro c hc
    simp only [List.mem_map, List.mem_range] at hc
    rcases hc with ⟨x, hx, rfl⟩
    exact hfilled x hx)]
  rw [hfold]
  rfl

/-!
## The backward walk (C2)
-/

lemma successors_mem_weak (p size q : Pos) (h : q ∈ p.successors size) :
    q.y = p.y + 1 ∧ q.x ≤ size.x - 1 := by
  unfold Pos.successors at h
  split at h
  · have hm := posLine_mem _ _ _ _ h
    have := hm.2.1
    exact ⟨hm.2.2, by omega⟩
  · exact absurd h (List.not_mem_nil _)

lemma clearLoop_frame (fuel : Nat) :
    ∀ (s : SFState) (wl : List Pos),
      (clearLoop fuel s wl).sf.size = s.sf.size ∧
      (clearLoop fuel s wl).sf.contents.original_width =
        s.sf.contents.original_width ∧
      (clearLoop fuel s wl).sf.contents.current_width =
        s.sf.contents.current_width ∧
      (clearLoop fuel s wl).sf.contents.contents.length =
        s.sf.contents.contents.length := by
  induction fuel with
  | zero => intro s wl; exact ⟨rfl, rfl, rfl, rfl⟩
  | succ n ih =>
    intro s wl
    rcases wl with _ | ⟨pos, rest⟩
    · exact ⟨rfl, rfl, rfl, rfl⟩
    · simp only [clearLoop]
      exact ⟨(ih _ _).1, (ih _ _).2.1, (ih _ _).2.2.1,
        (ih _ _).2.2.2.trans (Matrix_length_set _ _ _)⟩

lemma clearLoop_get_below (fuel : Nat) :
    ∀ (s : SFState) (wl : List Pos) (Y : Nat),
      1 ≤ s.sf.contents.original_width →
      s.sf.size.x ≤ s.sf.contents.original_width →
      (∀ p ∈ wl, Y ≤ p.y ∧ p.x < s.sf.contents.original_width) →
      ∀ q : Pos, q.y < Y → q.x < s.sf.contents.original_width →
        (clearLoop fuel s wl).sf.contents.get q = s.sf.contents.get q := by
  induction fuel with
  | zero => intro s wl Y _ _ _ q _ _; rfl
  | succ n ih =>
    intro s wl Y how1 hsow hwl q hqY hqx
    rcases wl with _ | ⟨pos, rest⟩
    · rfl
    · have hpos := hwl pos (List.mem_cons_self pos rest)
      simp only [clearLoop]
      rw [ih _ _ Y (by exact how1) (by exact hsow) ?hwl q hqY (by exact hqx)]
      case hwl =>
        intro p' hp'
        show Y ≤ p'.y ∧ p'.x < s.sf.contents.original_width
        rcases List.mem_append.mp hp' with hmem | hmem
        · rw [List.mem_reverse] at hmem
          have hmem' := List.mem_filter.mp hmem
          have hw := successors_mem_weak pos s.sf.size p' hmem'.1
          exact ⟨by omega, by omega⟩
        · exact hwl p' (List.mem_cons_of_mem _ hmem)
      · exact Matrix_get_set_pos_ne _ _ _ _ hpos.2 hqx
          (by intro hcontra; rw [hcontra] at hpos; omega)

lemma clear_frame (s : SFState) (p : Pos) :
    (s.clear p).sf.size = s.sf.size ∧
    (s.clear p).sf.contents.original_width = s.sf.contents.original_width ∧
    (s.clear p).sf.contents.current_width = s.sf.contents.current_width ∧
    (s.clear p).sf.contents.contents.length = s.sf.contents.contents.length :=
  clearLoop_frame _ s [p]

lemma clear_get_below (s : SFState) (p : Pos) (q : Pos)
    (how1 : 1 ≤ s.sf.contents.original_width)
    (hsow : s.sf.size.x ≤ s.sf.contents.original_width)
    (hp : p.x < s.sf.contents.original_width)
    (hq : q.y < p.y) (hqx : q.x < s.sf.contents.original_width) :
    (s.clear p).sf.contents.get q = s.sf.contents.get q :=
  clearLoop_get_below _ s [p] p.y how1 hsow
    (by intro p' hp'
        rcases List.mem_cons.mp hp' with rfl | h
        · exact ⟨Nat.le_refl _, hp⟩
        · exact absurd h (List.not_mem_nil _))
    q hq hqx

lemma walkGo_spec (w h : Nat) (hw1 : 1 ≤ w) :
    ∀ (y : Nat) (s : SFState) (x : Nat),
      s.sf.size = ⟨w, h⟩ →
      s.sf.contents.original_width = w →
      x < w →
      (∀ q : Pos, q.x < w → q.y ≤ y →
        ∃ el, s.sf.contents.get q = some el ∧ GoodElem ⟨w, h⟩ q el) →
      ∃ seam s', walkGo y s x = some (seam, s') ∧
        seam.length = y + 1 ∧
        (∀ i, i < y + 1 → (seam.getD i ⟨0, 0⟩).y = y - i) ∧
        (∀ i, i < y + 1 → (seam.getD i ⟨0, 0⟩).x < w) ∧
        (∀ i, i + 1 < y + 1 →
          (seam.getD i ⟨0, 0⟩).x ≤ (seam.getD (i + 1) ⟨0, 0⟩).x + 1 ∧
          (seam.getD (i + 1) ⟨0, 0⟩).x ≤ (seam.getD i ⟨0, 0⟩).x + 1) ∧
        seam.getD 0 ⟨0, 0⟩ = ⟨x, y⟩ := by
  intro y
  induction y with
  | zero =>
    intro s x hsz how hx _
    refine ⟨[⟨x, 0⟩], s.clear ⟨x, 0⟩, rfl, rfl, ?_, ?_, ?_, rfl⟩
    · intro i hi
      have : i = 0 := by omega
      subst this
      rfl
    · intro i hi
      have : i = 0 := by omega
      subst this
      exact hx
    · intro i hi
      omega
  | succ m ih =>
    intro s x hsz how hx hgood
    rcases hgood ⟨x, m + 1⟩ hx (Nat.le_refl _) with ⟨el, hget, hel⟩
    have hnext : el.predecessor ⟨x, m + 1⟩ = ⟨(el.predecessor ⟨x, m + 1⟩).x, m⟩ := by
      unfold SeamElem.predecessor
      rfl
    have hnx : (el.predecessor ⟨x, m + 1⟩).x < w := hel.1
    have hadj1 : (el.predecessor ⟨x, m + 1⟩).x ≤ x + 1 := hel.2.1
    have hadj2 : x ≤ (el.predecessor ⟨x, m + 1⟩).x + 1 := hel.2.2
    set s' := s.clear ⟨x, m + 1⟩ with hs'
    have hframe := clear_frame s ⟨x, m + 1⟩
    have hgood' : ∀ q : Pos, q.x < w → q.y ≤ m →
        ∃ el', s'.sf.contents.get q = some el' ∧ GoodElem ⟨w, h⟩ q el' := by
      intro q hqx hqy
      rw [hs', clear_get_below s ⟨x, m + 1⟩ q (by omega) (by rw [hsz, how])
        (by show x < s.sf.contents.original_width; omega)
        (by show q.y < m + 1; omega) (by omega)]
      exact hgood q hqx (by omega)
    rcases ih s' (el.predecessor ⟨x, m + 1⟩).x (hframe.1.trans hsz)
      (hframe.2.1.trans how) hnx hgood' with
      ⟨seam, s'', hwalk, hlen, hrows, hxs, hadj, hhead⟩
    refine ⟨⟨x, m + 1⟩ :: seam, s'', ?_, by simp [hlen], ?_, ?_, ?_, rfl⟩
    · show walkGo (m + 1) s x = some (⟨x, m + 1⟩ :: seam, s'')
      unfold walkGo
      rw [hget]
      dsimp only
      rw [← hs']
      rw [hwalk]
    · intro i hi
      rcases i with _ | j
      · rfl
      · simp only [List.getD_cons_succ]
        rw [hrows j (by omega)]
        omega
    · intro i hi
      rcases i with _ | j
      · exact hx
      · simp only [List.getD_cons_succ]
        exact hxs j (by omega)
    · intro i hi
      rcases i with _ | j
      · simp only [List.getD_cons_zero, List.getD_cons_succ]
        rw [hhead]
        exact ⟨by dsimp only; omega, by dsimp only; omega⟩
      · simp only [List.getD_cons_succ]
        exact hadj j (by omega)

/-- The joint specification of the first extraction on a fresh finder:
it succeeds, walks from the lowest-x minimal bottom cell, and yields one
in-grid position per row with adjacent rows within one column. -/
lemma extract_seam_new_spec (w h : Nat) (e : Pos → Nat) (hw : 1 ≤ w) (hh : 1 ≤ h) :
    ∃ seam s' x0, (SFState.new ⟨w, h⟩).extract_seam e = some (seam, s') ∧
      seam.length = h ∧
      seam.getD 0 ⟨0, 0⟩ = ⟨x0, h - 1⟩ ∧ x0 < w ∧
      (∀ i, i < h → (seam.getD i ⟨0, 0⟩).y = h - 1 - i) ∧
      (∀ i, i < h → (seam.getD i ⟨0, 0⟩).x < w) ∧
      (∀ i, i + 1 < h →
        (seam.getD i ⟨0, 0⟩).x ≤ (seam.getD (i + 1) ⟨0, 0⟩).x + 1 ∧
        (seam.getD (i + 1) ⟨0, 0⟩).x ≤ (seam.getD i ⟨0, 0⟩).x + 1) ∧
      (∀ x, x < w →
        scanKey ((SFState.new ⟨w, h⟩).fill e) h x0 ≤
          scanKey ((SFState.new ⟨w, h⟩).fill e) h x) ∧
      (∀ x, x < x0 →
        scanKey ((SFState.new ⟨w, h⟩).fill e) h x0 <
          scanKey ((SFState.new ⟨w, h⟩).fill e) h x) := by
  set s1 := (SFState.new ⟨w, h⟩).fill e with hs1
  have hsz1 : s1.sf.size = ⟨w, h⟩ := rfl
  have how1 : s1.sf.contents.original_width = w :=
    (fill_foldl_length ⟨w, h⟩ e _ _).2.1
  have hgood := fill_new_good w h e
  have hfilled : ∀ x, x < w → (s1.sf.contents.get ⟨x, h - 1⟩).isSome := by
    intro x hx
    rcases hgood ⟨x, h - 1⟩ hx (show h - 1 < h by omega) with ⟨el, hel, _⟩
    rw [hs1, hel]
    rfl
  rcases bottomScan_filled s1 w h hsz1 hw hh hfilled with
    ⟨x0, hscan, hx0, hmin, hstrict⟩
  rcases walkGo_spec w h hw (h - 1) s1 x0 hsz1 how1 hx0
    (fun q hqx hqy => hgood q hqx (by omega)) with
    ⟨seam, s2, hwalk, hlen, hrows, hxs, hadj, hhead⟩
  refine ⟨seam, ⟨⟨⟨s2.sf.size.x - 1, s2.sf.size.y⟩,
    s2.sf.contents.remove_seam seam⟩, s2.dirty⟩, x0, ?_, by omega, by
      rw [hhead], hx0, ?_, ?_, ?_, hmin, hstrict⟩
  · simp only [SFState.extract_seam, ← hs1]
    rw [hscan]
    have hws : walkSeam s1 ⟨x0, h - 1⟩ = walkGo (h - 1) s1 x0 := rfl
    simp only [hws, hwalk]
  · intro i hi
    rw [hrows i (by omega)]
  · intro i hi
    exact hxs i (by omega)
  · intro i hi
    exact hadj i (by omega)

/-- **C2.** For every energy function and grid `w ≥ 1`, `h ≥ 1`, the first
extraction on a fresh `SeamFinder` succeeds and returns a seam with exactly
`h` positions, exactly one position in each row `y ∈ [0, h)` (namely at index
`h-1-y`, the seam being listed bottom-to-top), and x coordinates of adjacent
rows differing by at most 1. -/
theorem extract_seam_row_coverage (w h : Nat) (e : Pos → Nat)
    (hw : 1 ≤ w) (hh : 1 ≤ h) :
    ∃ seam s', (SFState.new ⟨w, h⟩).extract_seam e = some (seam, s') ∧
      seam.length = h ∧
      (∀ r, r < h → ∃! i, i < h ∧ (seam.getD i ⟨0, 0⟩).y = r) ∧
      (∀ i, i + 1 < h →
        (seam.getD i ⟨0, 0⟩).x ≤ (seam.getD (i + 1) ⟨0, 0⟩).x + 1 ∧
        (seam.getD (i + 1) ⟨0, 0⟩).x ≤ (seam.getD i ⟨0, 0⟩).x + 1) := by
  rcases extract_seam_new_spec w h e hw hh with
    ⟨seam, s', x0, hext, hlen, _, _, hrows, _, hadj, _, _⟩
  refine ⟨seam, s', hext, hlen, ?_, hadj⟩
  intro r hr
  refine ⟨h - 1 - r, ⟨by omega, ?_⟩, ?_⟩
  · rw [hrows (h - 1 - r) (by omega)]
    omega
  · intro i hi
    have := hrows i hi.1
    omega

/-- Witness for C2: a concrete 2×2 extraction returns a 2-position seam. -/
theorem extract_seam_row_coverage_witness :
    ((SFState.new ⟨2, 2⟩).extract_seam (fun p => p.x)).map
      (fun r => r.1.length) = some 2 := by
  rcases extract_seam_row_coverage 2 2 (fun p => p.x) (by decide) (by decide) with
    ⟨seam, s', hext, hlen, _, _⟩
  rw [hext]
  show some seam.length = some 2
  rw [hlen]

/-- **C8.** For every energy function and fresh `w ≥ 1`, `h ≥ 1` grid, once
the grid is filled, the extracted seam starts at the bottom-row cell with
minimum cumulative energy, and among equal minima the cell with the lowest x
is chosen (every strictly smaller x has strictly larger cumulative energy). -/
theorem extract_seam_bottom_min (w h : Nat) (e : Pos → Nat)
    (hw : 1 ≤ w) (hh : 1 ≤ h) :
    ∃ seam s' x0, (SFState.new ⟨w, h⟩).extract_seam e = some (seam, s') ∧
      seam.getD 0 ⟨0, 0⟩ = ⟨x0, h - 1⟩ ∧ x0 < w ∧
      (∀ x, x < w →
        scanKey ((SFState.new ⟨w, h⟩).fill e) h x0 ≤
          scanKey ((SFState.new ⟨w, h⟩).fill e) h x) ∧
      (∀ x, x < x0 →
        scanKey ((SFState.new ⟨w, h⟩).fill e) h x0 <
          scanKey ((SFState.new ⟨w, h⟩).fill e) h x) := by
  rcases extract_seam_new_spec w h e hw hh with
    ⟨seam, s', x0, hext, _, hhead, hx0, _, _, _, hmin, hstrict⟩
  exact ⟨seam, s', x0, hext, hhead, hx0, hmin, hstrict⟩

/-- Witness for C8: with a constant energy the tie is broken at `x = 0`. -/
theorem extract_seam_bottom_min_witness :
    ((SFState.new ⟨2, 2⟩).extract_seam (fun _ => 0)).map
      (fun r => r.1.getD 0 ⟨0, 0⟩) = some ⟨0, 1⟩ := by
  rcases extract_seam_bottom_min 2 2 (fun _ => 0) (by decide) (by decide) with
    ⟨seam, s', x0, hext, hhead, hx0, hmin, hstrict⟩
  have hkeys : scanKey ((SFState.new ⟨2, 2⟩).fill (fun _ => 0)) 2 0 =
      scanKey ((SFState.new ⟨2, 2⟩).fill (fun _ => 0)) 2 1 := by decide
  have hx00 : x0 = 0 := by
    rcases Nat.eq_zero_or_pos x0 with h0 | h0
    · exact h0
    · exfalso
      have h1 : x0 = 1 := by omega
      have := hstrict 0 (by omega)
      rw [h1] at this
      omega
  rw [hext]
  show some (seam.getD 0 ⟨0, 0⟩) = some ⟨0, 1⟩
  rw [hhead, hx00]

/-!
## The dirty-bounds invariant (C10)

The invariant of the claim: every absent cell of the logical grid has its x
coordinate inside the half-open dirty range.  It is proved inductive
together with two well-formedness side conditions that the constructor
establishes and every operation preserves: the matrix dimensions agree with
the finder's size (`SFWF`), and every stored predecessor offset keeps the
predecessor's x inside the allocated row width (`CellsBounded`).
-/

lemma clearLoop_widen (fuel : Nat) :
    ∀ (s : SFState) (wl : List Pos),
      (clearLoop fuel s wl).dirty.lo ≤ s.dirty.lo ∧
      s.dirty.hi ≤ (clearLoop fuel s wl).dirty.hi := by
  induction fuel with
  | zero => intro s wl; exact ⟨Nat.le_refl _, Nat.le_refl _⟩
  | succ n ih =>
    intro s wl
    rcases wl with _ | ⟨pos, rest⟩
    · exact ⟨Nat.le_refl _, Nat.le_refl _⟩
    · simp only [clearLoop]
      have h := ih ⟨⟨s.sf.size, s.sf.contents.set pos none⟩, s.dirty.update pos⟩
        (((pos.successors s.sf.size).filter fun q =>
          match (s.sf.contents.set pos none).get q with
          | some e => decide (e.predecessor q = pos)
          | none => false).reverse ++ rest)
      have hupd : (s.dirty.update pos).lo ≤ s.dirty.lo ∧
          s.dirty.hi ≤ (s.dirty.update pos).hi := by
        unfold DirtyBounds.update
        constructor
        · dsimp only
          split
          · omega
          · exact Nat.le_refl _
        · dsimp only
          split
          · omega
          · exact Nat.le_refl _
      exact ⟨Nat.le_trans h.1 hupd.1, Nat.le_trans hupd.2 h.2⟩

lemma dirty_update_self (b : DirtyBounds) (p : Pos) :
    (b.update p).lo ≤ p.x ∧ p.x < (b.update p).hi := by
  unfold DirtyBounds.update
  constructor
  · dsimp only
    split
    · exact Nat.le_refl _
    · omega
  · dsimp only
    split
    · omega
    · omega

lemma clearLoop_inv (fuel : Nat) :
    ∀ (s : SFState) (wl : List Pos),
      1 ≤ s.sf.contents.original_width →
      s.sf.size.x ≤ s.sf.contents.original_width →
      (∀ p ∈ wl, p.x < s.sf.contents.original_width) →
      SFInv s →
      SFInv (clearLoop fuel s wl) := by
  induction fuel with
  | zero => intro s wl _ _ _ h; exact h
  | succ n ih =>
    intro s wl how1 hsow hwl hinv
    rcases wl with _ | ⟨pos, rest⟩
    · exact hinv
    · have hpos := hwl pos (List.mem_cons_self pos rest)
      simp only [clearLoop]
      apply ih _ _ (by exact how1) (by exact hsow)
      · intro p' hp'
        show p'.x < s.sf.contents.original_width
        rcases List.mem_append.mp hp' with hmem | hmem
        · rw [List.mem_reverse] at hmem
          have hw := successors_mem_weak pos s.sf.size p' (List.mem_filter.mp hmem).1
          omega
        · exact hwl p' (List.mem_cons_of_mem _ hmem)
      · intro q hqx hqy hget
        have hqx' : q.x < s.sf.size.x := hqx
        have hqy' : q.y < s.sf.size.y := hqy
        show (s.dirty.update pos).lo ≤ q.x ∧ q.x < (s.dirty.update pos).hi
        by_cases hqp : q = pos
        · subst hqp
          exact dirty_update_self s.dirty q
        · rw [show (⟨⟨s.sf.size, s.sf.contents.set pos none⟩,
              s.dirty.update pos⟩ : SFState).sf.contents.get q =
              (s.sf.contents.set pos none).get q from rfl,
            Matrix_get_set_pos_ne _ _ _ _ hpos (by omega)
              (fun h => hqp h.symm)] at hget
          have h := hinv q hqx' hqy' hget
          have hupd := dirty_update_self s.dirty pos
          unfold DirtyBounds.update
          constructor
          · dsimp only
            split
            all_goals omega
          · dsimp only
            split
            all_goals omega

lemma clearLoop_cellsBounded (fuel : Nat) :
    ∀ (s : SFState) (wl : List Pos),
      1 ≤ s.sf.contents.original_width →
      s.sf.size.x ≤ s.sf.contents.original_width →
      (∀ p ∈ wl, p.x < s.sf.contents.original_width) →
      CellsBounded s →
      CellsBounded (clearLoop fuel s wl) := by
  induction fuel with
  | zero => intro s wl _ _ _ h; exact h
  | succ n ih =>
    intro s wl how1 hsow hwl hcb
    rcases wl with _ | ⟨pos, rest⟩
    · exact hcb
    · have hpos := hwl pos (List.mem_cons_self pos rest)
      simp only [clearLoop]
      apply ih _ _ (by exact how1) (by exact hsow)
      · intro p' hp'
        show p'.x < s.sf.contents.original_width
        rcases List.mem_append.mp hp' with hmem | hmem
        · rw [List.mem_reverse] at hmem
          have hw := successors_mem_weak pos s.sf.size p' (List.mem_filter.mp hmem).1
          have := hw.2
          omega
        · exact hwl p' (List.mem_cons_of_mem _ hmem)
      · intro q el hqx hqy hget
        have hqx' : q.x < s.sf.contents.original_width := hqx
        have hqy' : q.y < s.sf.size.y := hqy
        show (el.predecessor q).x < s.sf.contents.original_width
        rcases Matrix_get_set_cases s.sf.contents pos q none with hc | hc
        · rw [show (⟨⟨s.sf.size, s.sf.contents.set pos none⟩,
              s.dirty.update pos⟩ : SFState).sf.contents.get q =
              (s.sf.contents.set pos none).get q from rfl, hc] at hget
          exact absurd hget (by simp)
        · rw [show (⟨⟨s.sf.size, s.sf.contents.set pos none⟩,
              s.dirty.update pos⟩ : SFState).sf.contents.get q =
              (s.sf.contents.set pos none).get q from rfl, hc] at hget
          exact hcb q el hqx' hqy' hget

lemma Matrix_get_set_none_self (m : Matrix (Option SeamElem)) (p : Pos) :
    (m.set p (none : Option SeamElem)).get p = none := by
  unfold Matrix.get Matrix.set
  rw [List.getD_eq_getElem?_getD, List.getElem?_set, if_pos rfl]
  split
  · simp
  · rfl

lemma clearLoop_none_mono (fuel : Nat) :
    ∀ (s : SFState) (wl : List Pos) (q : Pos),
      s.sf.contents.get q = none →
      (clearLoop fuel s wl).sf.contents.get q = none := by
  induction fuel with
  | zero => intro s wl q h; exact h
  | succ n ih =>
    intro s wl q h
    rcases wl with _ | ⟨pos, rest⟩
    · exact h
    · simp only [clearLoop]
      apply ih
      show (s.sf.contents.set pos none).get q = none
      rcases Matrix_get_set_cases s.sf.contents pos q (none : Option SeamElem)
        with hc | hc
      · rw [hc]
      · rw [hc]
        exact h

lemma clear_widen (s : SFState) (p : Pos) :
    (s.clear p).dirty.lo ≤ s.dirty.lo ∧ s.dirty.hi ≤ (s.clear p).dirty.hi :=
  clearLoop_widen _ s [p]

lemma clear_bounds_include (s : SFState) (p : Pos) :
    (s.clear p).dirty.lo ≤ p.x ∧ p.x < (s.clear p).dirty.hi := by
  unfold SFState.clear
  simp only [clearLoop]
  have hupd := dirty_update_self s.dirty p
  have hw := clearLoop_widen (s.sf.contents.contents.length)
    ⟨⟨s.sf.size, s.sf.contents.set p none⟩, s.dirty.update p⟩
    (((p.successors s.sf.size).filter fun q =>
      match (s.sf.contents.set p none).get q with
      | some e => decide (e.predecessor q = p)
      | none => false).reverse ++ [])
  exact ⟨Nat.le_trans hw.1 hupd.1, Nat.lt_of_lt_of_le hupd.2 hw.2⟩

lemma clear_sets_none (s : SFState) (p : Pos) :
    (s.clear p).sf.contents.get p = none := by
  unfold SFState.clear
  simp only [clearLoop]
  apply clearLoop_none_mono
  show (s.sf.contents.set p none).get p = none
  exact Matrix_get_set_none_self s.sf.contents p

lemma clear_inv (s : SFState) (p : Pos)
    (how1 : 1 ≤ s.sf.contents.original_width)
    (hsow : s.sf.size.x ≤ s.sf.contents.original_width)
    (hp : p.x < s.sf.contents.original_width)
    (hinv : SFInv s) : SFInv (s.clear p) :=
  clearLoop_inv _ s [p] how1 hsow
    (by intro p' hp'
        rcases List.mem_cons.mp hp' with rfl | h
        · exact hp
        · exact absurd h (List.not_mem_nil _))
    hinv

lemma clear_cellsBounded (s : SFState) (p : Pos)
    (how1 : 1 ≤ s.sf.contents.original_width)
    (hsow : s.sf.size.x ≤ s.sf.contents.original_width)
    (hp : p.x < s.sf.contents.original_width)
    (hcb : CellsBounded s) : CellsBounded (s.clear p) :=
  clearLoop_cellsBounded _ s [p] how1 hsow
    (by intro p' hp'
        rcases List.mem_cons.mp hp' with rfl | h
        · exact hp
        · exact absurd h (List.not_mem_nil _))
    hcb

lemma clear_wf (s : SFState) (p : Pos) (h : SFWF s) : SFWF (s.clear p) := by
  have hf := clear_frame s p
  unfold SFWF at *
  rw [hf.1, hf.2.1, hf.2.2.1, hf.2.2.2]
  exact h

/-!
### `fill` preserves the invariants
-/

lemma fill_wf (s : SFState) (e : Pos → Nat) (h : SFWF s) : SFWF (s.fill e) := by
  have hf := fill_foldl_length s.sf.size e
    (rectList ⟨s.dirty.lo, 0⟩ ⟨s.dirty.hi, s.sf.size.y⟩) s.sf.contents
  unfold SFWF at *
  show s.sf.size.x ≤ _ ∧ _
  rw [show ((s.fill e)).sf.contents =
    (rectList ⟨s.dirty.lo, 0⟩ ⟨s.dirty.hi, s.sf.size.y⟩).foldl
      (fillStep s.sf.size e) s.sf.contents from rfl,
    hf.1, hf.2.1, hf.2.2]
  exact h

lemma fill_inv (s : SFState) (e : Pos → Nat) (hwf : SFWF s) (hinv : SFInv s) :
    SFInv (s.fill e) := by
  intro q hqx hqy hget
  exfalso
  have hqx' : q.x < s.sf.size.x := hqx
  have hqy' : q.y < s.sf.size.y := hqy
  have hsome := fill_foldl_some s.sf.size e
    (rectList ⟨s.dirty.lo, 0⟩ ⟨s.dirty.hi, s.sf.size.y⟩) s.sf.contents
    hwf.1 hwf.2.2 q hqx' hqy' ?mem
  case mem =>
    rcases hold : s.sf.contents.get q with _ | el
    · left
      rw [rectList_mem]
      have hb := hinv q hqx' hqy' hold
      refine ⟨by dsimp only; omega, by dsimp only; omega, by dsimp only; omega,
        by dsimp only; omega⟩
    · right
      rfl
  rw [show (s.fill e).sf.contents =
    (rectList ⟨s.dirty.lo, 0⟩ ⟨s.dirty.hi, s.sf.size.y⟩).foldl
      (fillStep s.sf.size e) s.sf.contents from rfl] at hget
  rw [hget] at hsome
  exact absurd hsome (by simp)

lemma Matrix_get_set_full {α : Type} [Inhabited α] (m : Matrix α) (p q : Pos)
    (v : α) :
    (m.set p v).get q = m.get q ∨
      (p.x + p.y * m.original_width = q.x + q.y * m.original_width ∧
        ((m.set p v).get q = v ∨ (m.set p v).get q = default)) := by
  unfold Matrix.get Matrix.set
  simp only [List.getD_eq_getElem?_getD, List.getElem?_set]
  by_cases hidx : p.x + p.y * m.original_width = q.x + q.y * m.original_width
  · right
    refine ⟨hidx, ?_⟩
    rw [if_pos hidx]
    split
    · left
      simp
    · right
      rfl
  · left
    rw [if_neg hidx]

lemma fillCell_dx (size : Pos) (c : Matrix (Option SeamElem)) (e : Pos → Nat)
    (pos : Pos) :
    (fillCell size c e pos).predecessor_dx = 0 ∨
      ∃ q ∈ pos.predecessors size,
        (fillCell size c e pos).predecessor_dx = (q.x : Int) - (pos.x : Int) := by
  have hfold : ∀ (l : List Pos), (∀ q ∈ l, q ∈ pos.predecessors size) →
      ∀ acc : SeamElem,
      (acc.predecessor_dx = 0 ∨
        ∃ q ∈ pos.predecessors size, acc.predecessor_dx = (q.x : Int) - (pos.x : Int)) →
      ((l.foldl
        (fun best pred =>
          match c.get pred with
          | some e' =>
            if e'.energy + e pos < best.energy then
              ⟨(pred.x : Int) - (pos.x : Int), e'.energy + e pos⟩
            else best
          | none => best) acc).predecessor_dx = 0 ∨
        ∃ q ∈ pos.predecessors size,
          (l.foldl
            (fun best pred =>
              match c.get pred with
              | some e' =>
                if e'.energy + e pos < best.energy then
                  ⟨(pred.x : Int) - (pos.x : Int), e'.energy + e pos⟩
                else best
              | none => best) acc).predecessor_dx = (q.x : Int) - (pos.x : Int)) := by
    intro l
    induction l with
    | nil => intro _ acc hacc; exact hacc
    | cons p' rest ih =>
      intro hsub acc hacc
      simp only [List.foldl_cons]
      apply ih (fun q hq => hsub q (List.mem_cons_of_mem _ hq))
      rcases hget : c.get p' with _ | e'
      · exact hacc
      · dsimp only
        split
        · right
          exact ⟨p', hsub p' (List.mem_cons_self p' rest), rfl⟩
        · exact hacc
  have hdx := hfold (pos.predecessors size) (fun q hq => hq) (SeamElem.new U32MAX)
    (Or.inl rfl)
  unfold fillCell
  dsimp only
  split
  · exact hdx
  · exact hdx

lemma fill_foldl_cellsBounded (size : Pos) (e : Pos → Nat) :
    ∀ (ps : List Pos) (c : Matrix (Option SeamElem)),
      size.x ≤ c.original_width →
      (∀ q el, q.x < c.original_width → q.y < size.y →
        c.get q = some el → (el.predecessor q).x < c.original_width) →
      ∀ q el, q.x < c.original_width → q.y < size.y →
        (ps.foldl (fillStep size e) c).get q = some el →
        (el.predecessor q).x < c.original_width := by
  intro ps
  induction ps with
  | nil => intro c _ hcb q el hqx hqy hget; exact hcb q el hqx hqy hget
  | cons p rest ih =>
    intro c hsow hcb q el hqx hqy hget
    simp only [List.foldl_cons] at hget
    have hstep_ow : (fillStep size e c p).original_width = c.original_width := by
      unfold fillStep
      split
      · rfl
      · rfl
    have hres := ih (fillStep size e c p) (by rw [hstep_ow]; exact hsow) ?hcb q el
      (by rw [hstep_ow]; exact hqx) hqy hget
    case hcb =>
      intro q' el' hq'x hq'y hget'
      rw [hstep_ow] at hq'x
      rw [hstep_ow]
      show (el'.predecessor q').x < c.original_width
      unfold fillStep at hget'
      split at hget'
      · exact hcb q' el' hq'x hq'y hget'
      · rcases Matrix_get_set_full c p q' (some (fillCell size c e p)) with h | ⟨hidx, hv⟩
        · rw [h] at hget'
          exact hcb q' el' hq'x hq'y hget'
        · rcases hv with hv | hv
          · rw [hv] at hget'
            have hel : el' = fillCell size c e p := (Option.some.inj hget').symm
            subst hel
            rcases fillCell_dx size c e p with h0 | ⟨pr, hpr, hdx⟩
            · unfold SeamElem.predecessor
              rw [h0]
              dsimp only
              omega
            · have hm := predecessors_mem p size pr hpr
              unfold SeamElem.predecessor
              dsimp only
              rw [hdx]
              by_cases hneg : (pr.x : Int) - (p.x : Int) ≤ 0
              · omega
              · have h1 := hm.2.2.1
                have hprx : pr.x = p.x + 1 ∧ pr.x ≤ size.x - 1 := by omega
                have hppx : p.x < c.original_width := by omega
                have hq'p : p = q' :=
                  matrix_index_inj c.original_width p q' hppx hq'x hidx
                have hq'x_eq : q'.x = p.x := by rw [← hq'p]
                omega
          · rw [hv] at hget'
            exact absurd hget' (by simp)
    rw [hstep_ow] at hres
    exact hres

lemma fill_cellsBounded (s : SFState) (e : Pos → Nat) (hwf : SFWF s)
    (hcb : CellsBounded s) : CellsBounded (s.fill e) := by
  intro q el hqx hqy hget
  have how : (s.fill e).sf.contents.original_width =
      s.sf.contents.original_width :=
    (fill_foldl_length s.sf.size e _ _).2.1
  rw [how] at hqx
  have hqy' : q.y < s.sf.size.y := hqy
  rw [how]
  exact fill_foldl_cellsBounded s.sf.size e
    (rectList ⟨s.dirty.lo, 0⟩ ⟨s.dirty.hi, s.sf.size.y⟩) s.sf.contents
    hwf.1 (fun q' el' h1 h2 h3 => hcb q' el' h1 h2 h3) q el hqx hqy' hget

/-!
### `remove_seam`: row rotation and matrix reassembly
-/

lemma rotateRow_length {α : Type} (row : List α) (sx cw : Nat) :
    (rotateRow row sx cw).length = row.length := by
  unfold rotateRow
  split
  · next hg =>
    split
    · rfl
    · next a tail heq =>
      have hlen := congrArg List.length heq
      simp only [List.length_take, List.length_drop, List.length_cons,
        List.length_nil] at hlen
      simp only [List.length_append, List.length_take, List.length_drop,
        List.length_cons, List.length_nil]
      omega
  · rfl

lemma List_getD_take {α : Type} [Inhabited α] (l : List α) (n x : Nat) (h : x < n) :
    (l.take n).getD x default = l.getD x default := by
  rw [List.getD_eq_getElem?_getD, List.getElem?_take, if_pos h,
    ← List.getD_eq_getElem?_getD]

lemma List_getD_drop {α : Type} [Inhabited α] (l : List α) (n x : Nat) :
    (l.drop n).getD x default = l.getD (n + x) default := by
  rw [List.getD_eq_getElem?_getD, List.getElem?_drop,
    ← List.getD_eq_getElem?_getD]

/-- The rotated row in closed form. -/
lemma rotateRow_eq {α : Type} [Inhabited α] (row : List α) (sx cw : Nat)
    (hg : sx < cw) (hcw : cw ≤ row.length) :
    rotateRow row sx cw =
      row.take sx ++
        ((row.drop (sx + 1)).take (cw - sx - 1) ++ [row.getD sx default]) ++
        row.drop cw := by
  unfold rotateRow
  rw [if_pos ⟨hg, hcw⟩]
  split
  · next heq =>
    exfalso
    have hlen := congrArg List.length heq
    simp only [List.length_take, List.length_drop, List.length_nil] at hlen
    omega
  · next a tail heq =>
    have hlen := congrArg List.length heq
    simp only [List.length_take, List.length_drop, List.length_cons] at hlen
    have htail_len : tail.length = cw - sx - 1 := by omega
    have hhead : row[sx]? = some a := by
      have h0 := congrArg (fun l => l[0]?) heq
      simp only [List.getElem?_take, List.getElem?_drop,
        List.getElem?_cons_zero] at h0
      rw [if_pos (by omega)] at h0
      simpa using h0
    have ha : row.getD sx default = a := by
      rw [List.getD_eq_getElem?_getD, hhead]
      rfl
    have htl : tail = (row.drop (sx + 1)).take (cw - sx - 1) := by
      apply List.ext_getElem?
      intro n
      by_cases hn : n < cw - sx - 1
      · have h0 := congrArg (fun l => l[n + 1]?) heq
        simp only [List.getElem?_take, List.getElem?_drop,
          List.getElem?_cons_succ] at h0
        rw [if_pos (by omega)] at h0
        rw [List.getElem?_take, if_pos hn, List.getElem?_drop, ← h0]
        congr 1
        omega
      · rw [List.getElem?_eq_none (by omega),
          List.getElem?_eq_none (by simp [List.length_take, List.length_drop]; omega)]
    rw [ha, htl]

lemma rotateRow_getD_left {α : Type} [Inhabited α] (row : List α) (sx cw x : Nat)
    (hg : sx < cw) (hcw : cw ≤ row.length) (h1 : x < sx) :
    (rotateRow row sx cw).getD x default = row.getD x default := by
  rw [rotateRow_eq row sx cw hg hcw]
  rw [List.getD_append _ _ _ _ (by
    simp only [List.length_append, List.length_take]
    omega)]
  rw [List.getD_append _ _ _ _ (by
    simp only [List.length_take]
    omega)]
  exact List_getD_take row sx x h1

lemma rotateRow_getD_mid {α : Type} [Inhabited α] (row : List α) (sx cw x : Nat)
    (hg : sx < cw) (hcw : cw ≤ row.length) (h1 : sx ≤ x) (h2 : x < cw - 1) :
    (rotateRow row sx cw).getD x default = row.getD (x + 1) default := by
  rw [rotateRow_eq row sx cw hg hcw]
  have htk : (row.take sx).length = sx := by
    simp only [List.length_take]
    omega
  have hin : ((row.drop (sx + 1)).take (cw - sx - 1)).length = cw - sx - 1 := by
    simp only [List.length_take, List.length_drop]
    omega
  rw [List.getD_append _ _ _ _ (by
    simp only [List.length_append, htk, hin, List.length_cons, List.length_nil]
    omega)]
  rw [List.getD_append_right _ _ _ _ (by omega)]
  rw [htk]
  rw [List.getD_append _ _ _ _ (by rw [hin]; omega)]
  rw [List_getD_take _ _ _ (by omega), List_getD_drop]
  congr 1
  omega

lemma rotateRow_getD_last {α : Type} [Inhabited α] (row : List α) (sx cw : Nat)
    (hg : sx < cw) (hcw : cw ≤ row.length) :
    (rotateRow row sx cw).getD (cw - 1) default = row.getD sx default := by
  rw [rotateRow_eq row sx cw hg hcw]
  have htk : (row.take sx).length = sx := by
    simp only [List.length_take]
    omega
  have hin : ((row.drop (sx + 1)).take (cw - sx - 1)).length = cw - sx - 1 := by
    simp only [List.length_take, List.length_drop]
    omega
  rw [List.getD_append _ _ _ _ (by
    simp only [List.length_append, htk, hin, List.length_cons, List.length_nil]
    omega)]
  rw [List.getD_append_right _ _ _ _ (by omega)]
  rw [htk]
  rw [List.getD_append_right _ _ _ _ (by rw [hin]; omega)]
  rw [hin]
  rw [show cw - 1 - sx - (cw - sx - 1) = 0 from by omega]
  rfl

lemma rotateRow_getD_right {α : Type} [Inhabited α] (row : List α) (sx cw x : Nat)
    (hg : sx < cw) (hcw : cw ≤ row.length) (h1 : cw ≤ x) :
    (rotateRow row sx cw).getD x default = row.getD x default := by
  rw [rotateRow_eq row sx cw hg hcw]
  have htot : (row.take sx ++
      ((row.drop (sx + 1)).take (cw - sx - 1) ++ [row.getD sx default])).length =
      cw := by
    simp only [List.length_append, List.length_take, List.length_drop,
      List.length_cons, List.length_nil]
    omega
  rw [List.getD_append_right _ _ _ _ (by rw [htot]; omega)]
  rw [htot, List_getD_drop]
  congr 1
  omega

lemma List_getD_nil {α : Type} (n : Nat) (d : α) : ([] : List α).getD n d = d := by
  simp [List.getD]

lemma List_getD_reverse {α : Type} (l : List α) (i : Nat) (d : α)
    (h : i < l.length) :
    l.reverse.getD i d = l.getD (l.length - 1 - i) d := by
  rw [List.getD_eq_getElem?_getD, List.getElem?_reverse h,
    ← List.getD_eq_getElem?_getD]

/-- The chunking loop ignores its step budget as long as the budget covers the
list length. -/
lemma chunksExactGo_eq {α : Type} (w : Nat) (hw : 0 < w) :
    ∀ (f1 f2 : Nat) (l : List α), l.length ≤ f1 → l.length ≤ f2 →
      chunksExactGo w f1 l = chunksExactGo w f2 l := by
  intro f1
  induction f1 with
  | zero =>
    intro f2 l h1 _
    have hl : l = [] := List.length_eq_zero.mp (by omega)
    subst hl
    cases f2 with
    | zero => rfl
    | succ m =>
      show chunksExactGo w 0 [] = chunksExactGo w (m + 1) []
      simp only [chunksExactGo]
      rw [if_neg (by rintro ⟨-, hc⟩; simp only [List.length_nil] at hc; omega)]
  | succ n ih =>
    intro f2 l h1 h2
    cases f2 with
    | zero =>
      have hl : l = [] := List.length_eq_zero.mp (by omega)
      subst hl
      show chunksExactGo w (n + 1) [] = chunksExactGo w 0 []
      simp only [chunksExactGo]
      rw [if_neg (by rintro ⟨-, hc⟩; simp only [List.length_nil] at hc; omega)]
    | succ m =>
      show chunksExactGo w (n + 1) l = chunksExactGo w (m + 1) l
      simp only [chunksExactGo]
      by_cases hc : 0 < w ∧ w ≤ l.length
      · rw [if_pos hc, if_pos hc]
        congr 1
        exact ih m (l.drop w) (by simp only [List.length_drop]; omega)
          (by simp only [List.length_drop]; omega)
      · rw [if_neg hc, if_neg hc]

/-- `chunks_exact` on a list of exactly `w * h` elements: `h` chunks, each of
length `w`, the `y`-th being the `y`-th row of the row-major layout. -/
lemma chunksExact_spec {α : Type} (w : Nat) (hw : 0 < w) :
    ∀ (h : Nat) (l : List α), l.length = w * h →
      (chunksExact w l).length = h ∧
      (∀ r ∈ chunksExact w l, r.length = w) ∧
      (∀ y, (chunksExact w l).getD y [] =
        if y < h then (l.drop (w * y)).take w else []) := by
  intro h
  induction h with
  | zero =>
    intro l hl
    have hl0 : l = [] := List.length_eq_zero.mp (by omega)
    subst hl0
    refine ⟨rfl, ?_, ?_⟩
    · intro r hr
      exact absurd hr (List.not_mem_nil r)
    · intro y
      rw [if_neg (by omega)]
      exact List_getD_nil y []
  | succ k ih =>
    intro l hl
    rw [Nat.mul_succ] at hl
    have hll : w ≤ l.length := by omega
    have hchunk : chunksExact w l = l.take w :: chunksExact w (l.drop w) := by
      unfold chunksExact
      have h1 : l.length = (l.length - 1) + 1 := by omega
      rw [h1]
      simp only [chunksExactGo]
      rw [if_pos ⟨hw, hll⟩]
      congr 1
      exact chunksExactGo_eq w hw (l.length - 1) (l.drop w).length (l.drop w)
        (by simp only [List.length_drop]; omega) (Nat.le_refl _)
    have hdl : (l.drop w).length = w * k := by
      simp only [List.length_drop]
      omega
    rcases ih (l.drop w) hdl with ⟨ihlen, ihmem, ihget⟩
    refine ⟨?_, ?_, ?_⟩
    · rw [hchunk, List.length_cons, ihlen]
    · intro r hr
      rw [hchunk] at hr
      rcases List.mem_cons.mp hr with rfl | hr'
      · rw [List.length_take]
        omega
      · exact ihmem r hr'
    · intro y
      rw [hchunk]
      cases y with
      | zero =>
        rw [List.getD_cons_zero, if_pos (by omega), Nat.mul_zero, List.drop_zero]
      | succ y' =>
        rw [List.getD_cons_succ, ihget y']
        by_cases hy : y' < k
        · rw [if_pos hy, if_pos (by omega), List.drop_drop,
            show w + w * y' = w * (y' + 1) from by ring]
        · rw [if_neg hy, if_neg (by omega)]

lemma zipRotate_getD {α : Type} (cw : Nat) :
    ∀ (rows : List (List α)) (ps : List Pos) (y : Nat),
      (zipRotate cw rows ps).getD y [] =
        if y < ps.length then
          rotateRow (rows.getD y []) (ps.getD y ⟨0, 0⟩).x cw
        else rows.getD y [] := by
  intro rows
  induction rows with
  | nil =>
    intro ps y
    cases ps with
    | nil =>
      rw [if_neg (by simp)]
      rfl
    | cons p pt =>
      by_cases hy : y < (p :: pt).length
      · rw [if_pos hy]
        show ([] : List (List α)).getD y [] = _
        rw [List_getD_nil]
        unfold rotateRow
        rw [if_neg (by rintro ⟨h1, h2⟩; simp only [List.length_nil] at h2; omega)]
      · rw [if_neg hy]
        rfl
  | cons r rs ih =>
    intro ps y
    cases ps with
    | nil =>
      rw [if_neg (by simp)]
      rfl
    | cons p pt =>
      show (rotateRow r p.x cw :: zipRotate cw rs pt).getD y [] = _
      cases y with
      | zero =>
        rw [if_pos (by simp only [List.length_cons]; omega)]
        rw [List.getD_cons_zero, List.getD_cons_zero, List.getD_cons_zero]
      | succ y' =>
        rw [List.getD_cons_succ, List.getD_cons_succ, List.getD_cons_succ, ih pt y']
        by_cases hy : y' < pt.length
        · rw [if_pos hy, if_pos (by simp only [List.length_cons]; omega)]
        · rw [if_neg hy, if_neg (by simp only [List.length_cons]; omega)]

lemma zipRotate_mem_length {α : Type} (cw w : Nat) :
    ∀ (rows : List (List α)) (ps : List Pos),
      (∀ r ∈ rows, r.length = w) →
      ∀ r ∈ zipRotate cw rows ps, r.length = w := by
  intro rows
  induction rows with
  | nil =>
    intro ps hmem r hr
    cases ps with
    | nil => exact hmem r hr
    | cons p pt => exact absurd hr (List.not_mem_nil r)
  | cons rr rs ih =>
    intro ps hmem r hr
    cases ps with
    | nil => exact hmem r hr
    | cons p pt =>
      rcases List.mem_cons.mp hr with rfl | hr'
      · rw [rotateRow_length]
        exact hmem rr (List.mem_cons_self rr rs)
      · exact ih pt (fun r' h' => hmem r' (List.mem_cons_of_mem _ h')) r hr'

/-- Flattening rows of uniform length `w` is the row-major layout. -/
lemma flatten_uniform {α : Type} [Inhabited α] (w : Nat) :
    ∀ (rows : List (List α)), (∀ r ∈ rows, r.length = w) →
      rows.flatten.length = w * rows.length ∧
      ∀ x y, x < w →
        rows.flatten.getD (x + y * w) default = (rows.getD y []).getD x default := by
  intro rows
  induction rows with
  | nil =>
    intro _
    refine ⟨by simp, ?_⟩
    intro x y hx
    rw [List.flatten_nil, List_getD_nil, List_getD_nil, List_getD_nil]
  | cons r rs ih =>
    intro hlen
    have hr : r.length = w := hlen r (List.mem_cons_self r rs)
    rcases ih (fun r' h' => hlen r' (List.mem_cons_of_mem _ h')) with ⟨ihl, ihg⟩
    refine ⟨?_, ?_⟩
    · rw [List.flatten_cons, List.length_append, hr, ihl, List.length_cons]
      ring
    · intro x y hx
      rw [List.flatten_cons]
      cases y with
      | zero =>
        rw [Nat.zero_mul, Nat.add_zero, List.getD_append _ _ _ _ (by omega),
          List.getD_cons_zero]
      | succ y' =>
        have hmul : (y' + 1) * w = y' * w + w := Nat.succ_mul y' w
        rw [List.getD_append_right _ _ _ _ (by omega), hr,
          show x + (y' + 1) * w - w = x + y' * w from by omega,
          ihg x y' hx, List.getD_cons_succ]

/-- Reading one row of a row-major matrix. -/
lemma row_getD {α : Type} [Inhabited α] (m : Matrix α) (x y : Nat)
    (hx : x < m.original_width) :
    ((m.contents.drop (m.original_width * y)).take m.original_width).getD x default =
      m.get ⟨x, y⟩ := by
  rw [List_getD_take _ _ _ hx, List_getD_drop]
  show _ = m.contents.getD (x + y * m.original_width) default
  congr 1
  ring

/-- `Matrix::remove_seam`, read back cell by cell: row `y` of the result is
row `y` of the source with `rotate_left(1)` applied to `[seam_x(y), cw)`,
where `seam_x(y)` pairs row `y` with the reversed seam. -/
lemma remove_seam_get {α : Type} [Inhabited α] (m : Matrix α) (seam : List Pos)
    (h : Nat) (how : 0 < m.original_width)
    (hlen : m.contents.length = m.original_width * h)
    (x y : Nat) (hy : y < h) (hys : y < seam.length) (hx : x < m.original_width) :
    (m.remove_seam seam).get ⟨x, y⟩ =
      (rotateRow ((m.contents.drop (m.original_width * y)).take m.original_width)
        (seam.reverse.getD y ⟨0, 0⟩).x m.current_width).getD x default := by
  rcases chunksExact_spec m.original_width how h m.contents hlen with
    ⟨hclen, hcmem, hcget⟩
  have hrest : m.contents.drop
      (m.original_width * (chunksExact m.original_width m.contents).length) = [] := by
    rw [hclen, ← hlen, List.drop_length]
  have hzmem := zipRotate_mem_length m.current_width m.original_width
    (chunksExact m.original_width m.contents) seam.reverse hcmem
  rcases flatten_uniform m.original_width
    (zipRotate m.current_width (chunksExact m.original_width m.contents) seam.reverse)
    hzmem with ⟨-, hflat⟩
  show ((zipRotate m.current_width (chunksExact m.original_width m.contents)
      seam.reverse).flatten ++ m.contents.drop
      (m.original_width * (chunksExact m.original_width m.contents).length)).getD
      (x + y * m.original_width) default = _
  rw [hrest, List.append_nil, hflat x y hx,
    zipRotate_getD m.current_width _ _ y,
    if_pos (by rw [List.length_reverse]; exact hys), hcget y, if_pos hy]

/-- Cells strictly left of the row's rotated range, and cells of the shifted
range below the logical width, after `remove_seam`. -/
lemma remove_seam_get_shift {α : Type} [Inhabited α] (m : Matrix α)
    (seam : List Pos) (h x y : Nat) (how : 0 < m.original_width)
    (hlen : m.contents.length = m.original_width * h)
    (hcwle : m.current_width ≤ m.original_width)
    (hy : y < h) (hys : y < seam.length)
    (hsx : (seam.reverse.getD y ⟨0, 0⟩).x < m.current_width)
    (hx2 : x < m.current_width - 1) :
    (m.remove_seam seam).get ⟨x, y⟩ =
      if x < (seam.reverse.getD y ⟨0, 0⟩).x then m.get ⟨x, y⟩
      else m.get ⟨x + 1, y⟩ := by
  have hx : x < m.original_width := by omega
  have hrowlen :
      ((m.contents.drop (m.original_width * y)).take m.original_width).length =
        m.original_width := by
    rw [List.length_take, List.length_drop, hlen]
    have h2 : m.original_width * (y + 1) ≤ m.original_width * h :=
      Nat.mul_le_mul_left m.original_width (by omega)
    have h3 : m.original_width * (y + 1) = m.original_width * y + m.original_width :=
      Nat.mul_succ m.original_width y
    omega
  rw [remove_seam_get m seam h how hlen x y hy hys hx]
  by_cases hx1 : x < (seam.reverse.getD y ⟨0, 0⟩).x
  · rw [if_pos hx1,
      rotateRow_getD_left _ _ _ _ hsx (by rw [hrowlen]; exact hcwle) hx1,
      List_getD_take _ _ _ hx, List_getD_drop]
    show m.contents.getD _ default = m.contents.getD _ default
    congr 1
    ring
  · rw [if_neg hx1,
      rotateRow_getD_mid _ _ _ _ hsx (by rw [hrowlen]; exact hcwle)
        (by omega) hx2,
      List_getD_take _ _ _ (by omega), List_getD_drop]
    show m.contents.getD _ default = m.contents.getD _ default
    congr 1
    ring

/-- A row whose seam x lies at or beyond the logical width is left unchanged
by `remove_seam` (the rotation guard fails). -/
lemma remove_seam_get_frozen {α : Type} [Inhabited α] (m : Matrix α)
    (seam : List Pos) (h x y : Nat) (how : 0 < m.original_width)
    (hlen : m.contents.length = m.original_width * h)
    (hy : y < h) (hys : y < seam.length)
    (hsx : ¬ (seam.reverse.getD y ⟨0, 0⟩).x < m.current_width)
    (hx : x < m.original_width) :
    (m.remove_seam seam).get ⟨x, y⟩ = m.get ⟨x, y⟩ := by
  rw [remove_seam_get m seam h how hlen x y hy hys hx]
  unfold rotateRow
  rw [if_neg (by rintro ⟨h1, -⟩; exact hsx h1)]
  exact row_getD m x y hx

/-- A fresh finder's matrix is entirely absent. -/
lemma from_fn_none_get (size : Pos) (p : Pos) :
    (Matrix.from_fn size (fun _ _ => (none : Option SeamElem))).get p = none := by
  unfold Matrix.from_fn Matrix.get
  dsimp only
  rcases hel : ((List.range (size.x * size.y)).map
      (fun i => (none : Option SeamElem)))[p.x + p.y * size.x]? with _ | v
  · rw [List.getD_eq_getElem?_getD, hel]
    rfl
  · have hv := List.getElem?_mem hel
    simp only [List.mem_map] at hv
    rcases hv with ⟨i, -, hvi⟩
    rw [List.getD_eq_getElem?_getD, hel, ← hvi]
    rfl

/-- The invariant holds on construction: the constructor marks the whole
width dirty. -/
lemma new_inv (size : Pos) : SFInv (SFState.new size) := by
  intro p hx _ _
  exact ⟨Nat.zero_le _, hx⟩

lemma new_cellsBounded (size : Pos) : CellsBounded (SFState.new size) := by
  intro p el _ _ hget
  have h2 : (SFState.new size).sf.contents.get p = none := from_fn_none_get size p
  rw [h2] at hget
  exact Option.noConfusion hget

/-- `bottomScan` yields a concrete bottom cell only on a non-degenerate grid,
and that cell is an in-range bottom-row cell. -/
lemma bottomScan_some_some (s : SFState) (w h : Nat) (hsz : s.sf.size = ⟨w, h⟩)
    (init : Pos) (hb : bottomScan s = some (some init)) :
    1 ≤ w ∧ 1 ≤ h ∧ init.x < w ∧ init.y = h - 1 := by
  unfold bottomScan at hb
  rw [hsz] at hb
  dsimp only at hb
  by_cases hh : h = 0
  · rw [if_pos hh] at hb
    exact absurd (Option.some.inj hb) (by simp)
  · rw [if_neg hh] at hb
    split at hb
    · rcases Nat.eq_zero_or_pos w with rfl | hw
      · simp only [List.range_zero, List.map_nil, List.foldl_nil, Option.map_none] at hb
        exact absurd (Option.some.inj hb) (by simp)
      · rcases scanFold_spec s (h - 1) w hw with ⟨x0, hx0, hfold, -, -⟩
        rw [hfold] at hb
        have h2 := Option.some.inj hb
        simp only [Option.map_some] at h2
        have h3 := Option.some.inj h2
        refine ⟨hw, by omega, ?_, ?_⟩
        · rw [← h3]
          exact hx0
        · rw [← h3]
    · exact absurd hb (by simp)

/-- `bottomScan` yields the "no bottom cell" outcome only on a degenerate
grid. -/
lemma bottomScan_some_none (s : SFState) (w h : Nat) (hsz : s.sf.size = ⟨w, h⟩)
    (hb : bottomScan s = some none) : h = 0 ∨ w = 0 := by
  unfold bottomScan at hb
  rw [hsz] at hb
  dsimp only at hb
  by_cases hh : h = 0
  · exact Or.inl hh
  · right
    rw [if_neg hh] at hb
    split at hb
    · by_contra hw
      rcases scanFold_spec s (h - 1) w (by omega) with ⟨x0, hx0, hfold, -, -⟩
      rw [hfold] at hb
      have h2 := Option.some.inj hb
      simp only [Option.map_some] at h2
      exact Option.noConfusion h2
    · exact absurd hb (by simp)

/-- The backward walk preserves the invariant family, only widens the dirty
bounds, and every seam cell's x is recorded inside the final dirty bounds. -/
lemma walkGo_c10 (w h : Nat) :
    ∀ (y : Nat) (s : SFState) (x : Nat) (seam : List Pos) (s₂ : SFState),
      s.sf.size = ⟨w, h⟩ → SFWF s → CellsBounded s → SFInv s →
      x < s.sf.contents.original_width → y < h →
      walkGo y s x = some (seam, s₂) →
      s₂.sf.size = ⟨w, h⟩ ∧ SFWF s₂ ∧ CellsBounded s₂ ∧ SFInv s₂ ∧
      s₂.sf.contents.original_width = s.sf.contents.original_width ∧
      s₂.dirty.lo ≤ s.dirty.lo ∧ s.dirty.hi ≤ s₂.dirty.hi ∧
      seam.length = y + 1 ∧
      ∀ i, i < y + 1 →
        s₂.dirty.lo ≤ (seam.getD i ⟨0, 0⟩).x ∧
        (seam.getD i ⟨0, 0⟩).x < s₂.dirty.hi := by
  intro y
  induction y with
  | zero =>
    intro s x seam s₂ hsz hwf hcb hinv hx hyh hrun
    simp only [walkGo, Option.some.injEq, Prod.mk.injEq] at hrun
    rcases hrun with ⟨h1, h2⟩
    subst h1
    subst h2
    have hszx : s.sf.size.x = w := by rw [hsz]
    have how1 : 1 ≤ s.sf.contents.original_width := by
      have := hwf.1
      omega
    have hfr := clear_frame s ⟨x, 0⟩
    have hwid := clear_widen s ⟨x, 0⟩
    have hbi := clear_bounds_include s ⟨x, 0⟩
    refine ⟨hfr.1.trans hsz, clear_wf s ⟨x, 0⟩ hwf,
      clear_cellsBounded s ⟨x, 0⟩ how1 hwf.1 hx hcb,
      clear_inv s ⟨x, 0⟩ how1 hwf.1 hx hinv,
      hfr.2.1, hwid.1, hwid.2, rfl, ?_⟩
    intro i hi
    have hi0 : i = 0 := by omega
    subst hi0
    exact hbi
  | succ y' ih =>
    intro s x seam s₂ hsz hwf hcb hinv hx hyh hrun
    simp only [walkGo] at hrun
    rcases hget : s.sf.contents.get ⟨x, y' + 1⟩ with _ | e
    · rw [hget] at hrun
      exact absurd hrun (by simp)
    · rw [hget] at hrun
      dsimp only at hrun
      rcases hrec : walkGo y' (s.clear ⟨x, y' + 1⟩)
          ((e.predecessor ⟨x, y' + 1⟩).x) with _ | ⟨rest, s₃⟩
      · rw [hrec] at hrun
        exact absurd hrun (by simp)
      · rw [hrec] at hrun
        dsimp only at hrun
        simp only [Option.some.injEq, Prod.mk.injEq] at hrun
        rcases hrun with ⟨h1, h2⟩
        subst h1
        subst h2
        have hszx : s.sf.size.x = w := by rw [hsz]
        have hszy : s.sf.size.y = h := by rw [hsz]
        have how1 : 1 ≤ s.sf.contents.original_width := by
          have h0 : x < s.sf.contents.original_width := hx
          omega
        have hfr := clear_frame s ⟨x, y' + 1⟩
        have hwid := clear_widen s ⟨x, y' + 1⟩
        have hbi := clear_bounds_include s ⟨x, y' + 1⟩
        have hnx : (e.predecessor ⟨x, y' + 1⟩).x <
            (s.clear ⟨x, y' + 1⟩).sf.contents.original_width := by
          rw [hfr.2.1]
          exact hcb ⟨x, y' + 1⟩ e hx (by show y' + 1 < s.sf.size.y; omega) hget
        rcases ih (s.clear ⟨x, y' + 1⟩) ((e.predecessor ⟨x, y' + 1⟩).x) rest s₃
          (hfr.1.trans hsz) (clear_wf s ⟨x, y' + 1⟩ hwf)
          (clear_cellsBounded s ⟨x, y' + 1⟩ how1 hwf.1 hx hcb)
          (clear_inv s ⟨x, y' + 1⟩ how1 hwf.1 hx hinv)
          hnx (by omega) hrec with
          ⟨csz, cwf, ccb, cinv, cow, clo, chi, clen, cbnd⟩
        refine ⟨csz, cwf, ccb, cinv, cow.trans hfr.2.1,
          Nat.le_trans clo hwid.1, Nat.le_trans hwid.2 chi, ?_, ?_⟩
        · rw [List.length_cons, clen]
        · intro i hi
          cases i with
          | zero =>
            rw [List.getD_cons_zero]
            exact ⟨Nat.le_trans clo hbi.1, Nat.lt_of_lt_of_le hbi.2 chi⟩
          | succ i' =>
            rw [List.getD_cons_succ]
            exact cbnd i' (by omega)

/-- `remove_seam` after a full-height walk preserves the invariant at the
shrunk size: a surviving absent cell is either an untouched absent cell
(left of the seam) or a shifted absent cell (right of it), and the cleared
seam x of its row sits between them inside the dirty bounds. -/
lemma remove_seam_inv (s₂ : SFState) (w h : Nat) (seam : List Pos)
    (hsz : s₂.sf.size = ⟨w, h⟩) (hwf : SFWF s₂) (hinv : SFInv s₂)
    (hlen : seam.length = h)
    (hbnd : ∀ i, i < h →
      s₂.dirty.lo ≤ (seam.getD i ⟨0, 0⟩).x ∧
      (seam.getD i ⟨0, 0⟩).x < s₂.dirty.hi) :
    SFInv ⟨⟨⟨w - 1, h⟩, s₂.sf.contents.remove_seam seam⟩, s₂.dirty⟩ := by
  intro p hx hy hnone
  have hx' : p.x < w - 1 := hx
  have hy' : p.y < h := hy
  have hszx : s₂.sf.size.x = w := by rw [hsz]
  have hszy : s₂.sf.size.y = h := by rw [hsz]
  have hcw : s₂.sf.contents.current_width = w := by
    rw [hwf.2.1, hszx]
  have hle : w ≤ s₂.sf.contents.original_width := by
    have := hwf.1
    omega
  have hlenc : s₂.sf.contents.contents.length =
      s₂.sf.contents.original_width * h := by
    rw [hwf.2.2, hszy]
  have how : 0 < s₂.sf.contents.original_width := by omega
  have hys : p.y < seam.length := by omega
  have hrev : seam.reverse.getD p.y ⟨0, 0⟩ = seam.getD (h - 1 - p.y) ⟨0, 0⟩ := by
    rw [List_getD_reverse seam p.y ⟨0, 0⟩ (by omega), hlen]
  have hsxb := hbnd (h - 1 - p.y) (by omega)
  have hnone' : (s₂.sf.contents.remove_seam seam).get p = none := hnone
  show s₂.dirty.lo ≤ p.x ∧ p.x < s₂.dirty.hi
  have hp : p = ⟨p.x, p.y⟩ := rfl
  by_cases hcase : (seam.reverse.getD p.y ⟨0, 0⟩).x < s₂.sf.contents.current_width
  · rw [hp, remove_seam_get_shift s₂.sf.contents seam h p.x p.y how hlenc
      (by omega) hy' hys hcase (by omega)] at hnone'
    by_cases hlt : p.x < (seam.reverse.getD p.y ⟨0, 0⟩).x
    · rw [if_pos hlt] at hnone'
      exact hinv ⟨p.x, p.y⟩ (by dsimp only; omega) (by dsimp only; omega) hnone'
    · rw [if_neg hlt] at hnone'
      have h2 := hinv ⟨p.x + 1, p.y⟩ (by dsimp only; omega)
        (by dsimp only; omega) hnone'
      dsimp only at h2
      rw [hrev] at hlt
      constructor
      · omega
      · omega
  · rw [hp, remove_seam_get_frozen s₂.sf.contents seam h p.x p.y how hlenc
      hy' hys hcase (by omega)] at hnone'
    exact hinv ⟨p.x, p.y⟩ (by dsimp only; omega) (by dsimp only; omega) hnone'

/-- C10: the dirty-bounds invariant of the `SeamFinder` cache — every absent
cell of the logical grid has its x coordinate inside the half-open dirty
range `[lo, hi)` — holds after construction and is preserved by `fill`, by
`clear` of any in-grid column, and by every successful `extract_seam`
(`fill` and `clear` under the matrix-shape well-formedness the constructor
establishes, `extract_seam` additionally under the stored-offset bound that
every filled cell satisfies). -/
theorem seamfinder_dirty_invariant :
    (∀ size : Pos, SFInv (SFState.new size)) ∧
    (∀ (s : SFState) (e : Pos → Nat), SFWF s → SFInv s → SFInv (s.fill e)) ∧
    (∀ (s : SFState) (p : Pos), SFWF s → p.x < s.sf.size.x → SFInv s →
      SFInv (s.clear p)) ∧
    (∀ (s : SFState) (e : Pos → Nat) (seam : List Pos) (s' : SFState),
      SFWF s → CellsBounded s → SFInv s →
      s.extract_seam e = some (seam, s') → SFInv s') := by
  refine ⟨new_inv, fun s e hwf hinv => fill_inv s e hwf hinv, ?_, ?_⟩
  · intro s p hwf hp hinv
    have hle := hwf.1
    exact clear_inv s p (by omega) hle (by omega) hinv
  · intro s e seam s' hwf hcb hinv hex
    have twf := fill_wf s e hwf
    have tinv := fill_inv s e hwf hinv
    have tcb := fill_cellsBounded s e hwf hcb
    simp only [SFState.extract_seam] at hex
    rcases hbs : bottomScan (s.fill e) with _ | oinit
    · rw [hbs] at hex
      exact absurd hex (by simp)
    · rw [hbs] at hex
      rcases oinit with _ | init
      · dsimp only at hex
        simp only [Option.some.injEq, Prod.mk.injEq] at hex
        rcases hex with ⟨-, h2⟩
        subst h2
        rcases bottomScan_some_none (s.fill e) (s.fill e).sf.size.x
          (s.fill e).sf.size.y rfl hbs with hdeg | hdeg
        · intro p _ hy _
          have hy' : p.y < (s.fill e).sf.size.y := hy
          omega
        · intro p hx _ _
          have hx' : p.x < (s.fill e).sf.size.x - 1 := hx
          omega
      · dsimp only at hex
        rcases hws : walkSeam (s.fill e) init with _ | ⟨sm, s₂⟩
        · rw [hws] at hex
          exact absurd hex (by simp)
        · rw [hws] at hex
          dsimp only at hex
          simp only [Option.some.injEq, Prod.mk.injEq] at hex
          rcases hex with ⟨h1, h2⟩
          subst h1
          subst h2
          rcases bottomScan_some_some (s.fill e) (s.fill e).sf.size.x
            (s.fill e).sf.size.y rfl init hbs with ⟨hw1, hh1, hix, hiy⟩
          have hrun : walkGo init.y (s.fill e) init.x = some (sm, s₂) := hws
          rcases walkGo_c10 (s.fill e).sf.size.x (s.fill e).sf.size.y init.y
            (s.fill e) init.x sm s₂ rfl twf tcb tinv
            (by have := twf.1; omega) (by omega) hrun with
            ⟨csz, cwf, ccb, cinv, -, -, -, clen, cbnd⟩
          have hs2x : s₂.sf.size.x = (s.fill e).sf.size.x := by rw [csz]
          have hs2y : s₂.sf.size.y = (s.fill e).sf.size.y := by rw [csz]
          rw [hs2x, hs2y]
          exact remove_seam_inv s₂ (s.fill e).sf.size.x (s.fill e).sf.size.y sm
            csz cwf cinv (by omega)
            (fun i hi => cbnd i (by omega))

/-- Witness for C10: on a concrete 2×2 finder with unit energies, the
invariant holds after construction, after a fill, after clearing a cell,
and after a (kernel-evaluated, successful) seam extraction. -/
theorem seamfinder_dirty_invariant_witness :
    SFInv (SFState.new ⟨2, 2⟩) ∧
    SFInv ((SFState.new ⟨2, 2⟩).fill (fun _ => 1)) ∧
    SFInv ((SFState.new ⟨2, 2⟩).clear ⟨0, 1⟩) ∧
    ∃ seam s', (SFState.new ⟨2, 2⟩).extract_seam (fun _ => 1) = some (seam, s') ∧
      SFInv s' := by
  have h1 := seamfinder_dirty_invariant.1 ⟨2, 2⟩
  have hwf : SFWF (SFState.new ⟨2, 2⟩) := by
    refine ⟨?_, ?_, ?_⟩ <;> decide
  refine ⟨h1, seamfinder_dirty_invariant.2.1 _ (fun _ => 1) hwf h1,
    seamfinder_dirty_invariant.2.2.1 _ ⟨0, 1⟩ hwf (by decide) h1, ?_⟩
  have hs : ((SFState.new ⟨2, 2⟩).extract_seam (fun _ => 1)).isSome := by decide
  rcases Option.isSome_iff_exists.mp hs with ⟨⟨sm, s'⟩, heq⟩
  exact ⟨sm, s', heq,
    seamfinder_dirty_invariant.2.2.2 _ (fun _ => 1) sm s' hwf
      (new_cellsBounded ⟨2, 2⟩) h1 heq⟩

end Seamcarving
